import Mathlib

/-
  Verification development for the browser-ai tool-call streaming core.

  Shallow embedding of:
  - ToolCallFenceDetector (detectStreamingFence, findFenceStart, computeOverlapLength)
  - extractArgumentsDelta / ArgumentsStreamState (tool-call-stream-utils.ts)
  - parseJsonFunctionCalls and generateToolCallId (parse-json-function-calls.ts)

  Strings are modelled as `List Char`.  JavaScript numbers that only ever hold
  non-negative integers (indices, Date.now()) are modelled as `Nat`; the one
  float-valued source (`Math.random().toString(36)`) is modelled by its observable
  string representation, constrained by a predicate.
-/

/-! ## Basic character and list helpers -/

/-- Whitespace class used by the JavaScript `\s` regex class and `String.trim`
(ASCII part; the sources only ever meet ASCII whitespace). -/
def isJsWs (c : Char) : Bool :=
  c == ' ' || c == '\t' || c == '\n' || c == '\r' || c == Char.ofNat 11 || c == Char.ofNat 12

/-- Left brace character, written via its code point. -/
def lbrace : Char := Char.ofNat 123

/-- Right brace character, written via its code point. -/
def rbrace : Char := Char.ofNat 125

/-- Does the first list start with the second?  (JS `a.startsWith(b)` with a = text.) -/
def startsWithL : List Char → List Char → Bool
  | _, [] => true
  | [], _ :: _ => false
  | a :: as, b :: bs => a == b && startsWithL as bs

/-- Last `n` characters of a list (JS `s.slice(-n)` for `n > 0`; for `n = 0` JS
would give the whole string, but every use site guards `n > 0`). -/
def lastN (n : Nat) (xs : List Char) : List Char := xs.drop (xs.length - n)

/-- First index at or after running index `i` where `pat` occurs in `xs`
(auxiliary recursion for JS `String.indexOf`). -/
def firstIdxOfAux : List Char → List Char → Nat → Option Nat
  | [], pat, i => if startsWithL [] pat then some i else none
  | x :: t, pat, i =>
    if startsWithL (x :: t) pat then some i else firstIdxOfAux t pat (i + 1)

/-- JS `xs.indexOf(pat)` on strings, as an optional index. -/
def firstIdxOf (xs pat : List Char) : Option Nat := firstIdxOfAux xs pat 0

/-- JS `String.trim` (whitespace stripped from both ends). -/
def jsTrim (xs : List Char) : List Char :=
  ((xs.dropWhile isJsWs).reverse.dropWhile isJsWs).reverse

/-- Splits a list on every occurrence of separator `sep` (JS `String.split(sep)`
for a one-character separator). -/
def splitOnCh (sep : Char) : List Char → List (List Char)
  | [] => [[]]
  | c :: rest =>
    let r := splitOnCh sep rest
    if c == sep then [] :: r
    else match r with
      | [] => [[c]]
      | h :: t => (c :: h) :: t

/-- Number of leading JS-whitespace characters of `cs.drop j`. -/
def countWsFrom (cs : List Char) (j : Nat) : Nat :=
  ((cs.drop j).takeWhile isJsWs).length

/-- Character of `cs` at index `n`, if in range. -/
def getCharAt (cs : List Char) (n : Nat) : Option Char := (cs.drop n).head?

/-! ## OverlapResolver: `ToolCallFenceDetector.computeOverlapLength` -/

/-- Downward search of the source's inner loop: largest `size ≤ m` (and `≥ 1`)
such that `cand` starts with the last `size` characters of `text`, else `0`.
Mirrors `for (let size = maxLength; size > 0; size -= 1) ... break`. -/
def overlapFind (text cand : List Char) : Nat → Nat
  | 0 => 0
  | k + 1 =>
    if startsWithL cand (lastN (k + 1) text) then k + 1 else overlapFind text cand k

/-- Per-candidate overlap: the source computes
`maxLength = Math.min(text.length, prefix.length - 1)` and searches downward.
(`prefix.length - 1` is `-1` in JS for an empty candidate, giving an empty loop;
truncated `Nat` subtraction gives the same empty loop.) -/
def overlapFor (text cand : List Char) : Nat :=
  overlapFind text cand (min text.length (cand.length - 1))

/-- `ToolCallFenceDetector.computeOverlapLength(text, prefixes)`. -/
def computeOverlapLength (text : List Char) (prefixes : List (List Char)) : Nat :=
  prefixes.foldl (fun ov p => max ov (overlapFor text p)) 0

/-- Claim-side predicate: `k` is a valid overlap length of `text` against `cand`
exactly as the claim words it: `1 ≤ k ≤ min(len(text), len(cand)-1)` and `cand`
starts with the last `k` characters of `text`.  (`k ≤ len(cand)-1` is rendered
subtraction-free as `k + 1 ≤ len(cand)`.) -/
def validOv (text cand : List Char) (k : Nat) : Prop :=
  1 ≤ k ∧ k ≤ text.length ∧ k + 1 ≤ cand.length ∧ startsWithL cand (lastN k text) = true

/-- Length of the longest candidate in a list. -/
def maxLenList (cands : List (List Char)) : Nat :=
  cands.foldl (fun m c => max m c.length) 0

/-! ## ArgumentDeltaExtractor: `extractArgumentsDelta` -/

/-- `ArgumentsStreamState` from tool-call-stream-utils.ts. -/
structure ArgumentsStreamState where
  searchFrom : Nat
  valueStartIndex : Option Nat
  parseIndex : Nat
  started : Bool
  depth : Nat
  inString : Bool
  escaped : Bool
  complete : Bool
deriving DecidableEq

/-- `createArgumentsStreamState()`. -/
def createArgumentsStreamState : ArgumentsStreamState :=
  ⟨0, none, 0, false, 0, false, false, false⟩

/-- The scalar scanning fields of the state (those the character loop updates). -/
structure ScanSub where
  started : Bool
  depth : Nat
  inString : Bool
  escaped : Bool
  complete : Bool
deriving DecidableEq

/-- Scanner fields of an `ArgumentsStreamState`. -/
def subOf (st : ArgumentsStreamState) : ScanSub :=
  ⟨st.started, st.depth, st.inString, st.escaped, st.complete⟩

/-- One character of the `extractArgumentsDelta` loop body (lines 72-113 of
tool-call-stream-utils.ts), acting on the scalar fields. -/
def scanStep (s : ScanSub) (c : Char) : ScanSub :=
  if s.started = false then
    if isJsWs c then s
    else { s with started := true, depth := if c == lbrace || c == '[' then 1 else 0 }
  else if s.escaped then { s with escaped := false }
  else if c == '\\' then { s with escaped := true }
  else if c == '"' then { s with inString := !s.inString }
  else if !s.inString && (c == lbrace || c == '[') then { s with depth := s.depth + 1 }
  else if !s.inString && (c == rbrace || c == ']') && decide (0 < s.depth) then
    { s with depth := s.depth - 1, complete := s.depth == 1 }
  else s

/-- The character loop of `extractArgumentsDelta`: consumes characters, building
the delta, and returns early (having consumed the closing bracket) the moment
`complete` becomes true.  Also returns the number of characters consumed. -/
def scanLoop : List Char → ScanSub → List Char × ScanSub × Nat
  | [], s => ([], s, 0)
  | c :: rest, s =>
    let s' := scanStep s c
    if s'.complete then ([c], s', 1)
    else
      let r := scanLoop rest s'
      (c :: r.1, r.2.1, r.2.2 + 1)

/-- The constant `ARGUMENTS_SEARCH_OVERLAP`. -/
def ARGUMENTS_SEARCH_OVERLAP : Nat := 32

/-- Match of the regex `"arguments"\s*:\s*` at exactly position `i` of `cs`;
returns the index one past the match (both `\s*` are greedy, and the regex can
only match this way since `:` is not whitespace).  Returns `none` if the regex
does not match at `i`. -/
def matchKeyAt (cs : List Char) (i : Nat) : Option Nat :=
  if startsWithL (cs.drop i) ("\"arguments\"".toList) then
    let j := i + 11
    let w1 := countWsFrom cs j
    if getCharAt cs (j + w1) == some ':' then
      let k := j + w1 + 1
      some (k + countWsFrom cs k)
    else none
  else none

/-- Scan for the first match of `ARGUMENTS_FIELD_REGEX` at a position `≥ i`
(the JS `exec` with `lastIndex = i`); fuel-driven, `cs.length + 1` suffices. -/
def findKeyFrom : Nat → List Char → Nat → Option (Nat × Nat)
  | 0, _, _ => none
  | fuel + 1, cs, i =>
    if cs.length < i then none
    else match matchKeyAt cs i with
      | some e => some (i, e)
      | none => findKeyFrom fuel cs (i + 1)

/-- First match (start index, end index) of `"arguments"\s*:\s*` in `cs` at a
position `≥ i`. -/
def findKey (cs : List Char) (i : Nat) : Option (Nat × Nat) :=
  findKeyFrom (cs.length + 1) cs i

/-- Scanning phase of `extractArgumentsDelta` (from the
`if (state.parseIndex >= content.length)` guard to the end of the function). -/
def extractScan (content : List Char) (state : ArgumentsStreamState) :
    List Char × ArgumentsStreamState :=
  if content.length ≤ state.parseIndex then ([], state)
  else
    let r := scanLoop (content.drop state.parseIndex) (subOf state)
    (r.1,
      { state with
        parseIndex := state.parseIndex + r.2.2
        started := r.2.1.started
        depth := r.2.1.depth
        inString := r.2.1.inString
        escaped := r.2.1.escaped
        complete := r.2.1.complete })

/-- `extractArgumentsDelta(content, state)` from tool-call-stream-utils.ts.
Returns the delta and the updated state (the source mutates `state` in place). -/
def extractArgumentsDelta (content : List Char) (state : ArgumentsStreamState) :
    List Char × ArgumentsStreamState :=
  if state.complete then ([], state)
  else
    match state.valueStartIndex with
    | none =>
      match findKey content state.searchFrom with
      | none => ([], { state with searchFrom := content.length - ARGUMENTS_SEARCH_OVERLAP })
      | some ie =>
        extractScan content
          { state with valueStartIndex := some ie.2, parseIndex := ie.2, searchFrom := ie.2 }
    | some _ => extractScan content state

/-- Feeds each element of `chain` (successive snapshots of the accumulated
content) to `extractArgumentsDelta` with one shared state, concatenating the
returned deltas. -/
def streamRun (chain : List (List Char)) : List Char × ArgumentsStreamState :=
  chain.foldl
    (fun acc c =>
      let r := extractArgumentsDelta c acc.2
      (acc.1 ++ r.1, r.2))
    ([], createArgumentsStreamState)

/-- Boolean test that `chain` is a non-empty sequence of texts, each a prefix of
the next, whose last element is `s` (an "increasing sequence of prefixes of `s`
ending with the full string"). -/
def chainTo (chain : List (List Char)) (s : List Char) : Bool :=
  match chain with
  | [] => false
  | c :: rest =>
    match rest with
    | [] => c == s
    | c' :: _ => startsWithL c' c && chainTo rest s

/-! ## `generateToolCallId` -/

/-- Decimal digit characters of a natural number (the JS `${Date.now()}`
interpolation); fuel-based, `n + 1` steps always suffice. -/
def natCharsAux : Nat → Nat → List Char → List Char
  | 0, _, acc => acc
  | fuel + 1, n, acc =>
    if n < 10 then Char.ofNat (48 + n) :: acc
    else natCharsAux fuel (n / 10) (Char.ofNat (48 + n % 10) :: acc)

/-- Decimal representation of a `Nat` as characters. -/
def natChars (n : Nat) : List Char := natCharsAux (n + 1) n []

/-- Characters a JS `Number.toString(36)` digit can be: `[0-9a-z]`. -/
def isLower36 (c : Char) : Bool := c.isDigit || ('a' ≤ c && c ≤ 'z')

/-- Observable shape of `Math.random().toString(36)` for a value in `[0, 1)`:
either `"0"` exactly, or `"0."` followed by at least one base-36 digit. -/
def isBase36Repr (r : List Char) : Bool :=
  r == ("0".toList) ||
    (startsWithL r ("0.".toList) && decide (2 < r.length) && (r.drop 2).all isLower36)

/-- `generateToolCallId()`: ``call_${Date.now()}_${Math.random().toString(36).slice(2, 9)}``.
`now` models `Date.now()` and `rand36` the string `Math.random().toString(36)`;
`slice(2, 9)` is `drop 2` then `take 7`. -/
def generateToolCallId (now : Nat) (rand36 : List Char) : List Char :=
  ("call_".toList) ++ natChars now ++ ("_".toList) ++ (rand36.drop 2).take 7

/-- Full-string match of the documented id pattern `call_\d+_[a-z0-9]{7}`.
(The backtracking regex is equivalent to this greedy matcher because `_` is not
a digit, so only the maximal digit run can be followed by `_`.) -/
def idMatches7 (cs : List Char) : Bool :=
  if startsWithL cs ("call_".toList) then
    let r := cs.drop 5
    let ds := r.takeWhile Char.isDigit
    let rest := r.drop ds.length
    decide (ds ≠ []) &&
      (match rest with
       | c :: sfx => c == '_' && sfx.length == 7 && sfx.all isLower36
       | [] => false)
  else false

/-- Full-string match of the relaxed pattern `call_\d+_[a-z0-9]{0,7}` (suffix of
at most seven base-36 characters). -/
def idMatchesUpTo7 (cs : List Char) : Bool :=
  if startsWithL cs ("call_".toList) then
    let r := cs.drop 5
    let ds := r.takeWhile Char.isDigit
    let rest := r.drop ds.length
    decide (ds ≠ []) &&
      (match rest with
       | c :: sfx => c == '_' && decide (sfx.length ≤ 7) && sfx.all isLower36
       | [] => false)
  else false

/-! ## StreamingFenceDetector: `ToolCallFenceDetector` -/

/-- `FencePattern` from the detector module.  The source field `end` is a Lean
keyword and is rendered `endMarker`. -/
structure FencePattern where
  start : List Char
  endMarker : List Char
  reconstructStart : List Char
  isRegex : Bool := false
deriving DecidableEq

/-- `DEFAULT_FENCE_PATTERNS`. -/
def DEFAULT_FENCE_PATTERNS : List FencePattern :=
  [⟨"```tool_call".toList, "```".toList, "```tool_call\n".toList, false⟩,
   ⟨"```tool-call".toList, "```".toList, "```tool-call\n".toList, false⟩]

/-- `EXTENDED_FENCE_PATTERNS`. -/
def EXTENDED_FENCE_PATTERNS : List FencePattern :=
  DEFAULT_FENCE_PATTERNS ++
    [⟨"<tool_call>".toList, "</tool_call>".toList, "<tool_call>".toList, false⟩]

/-- Constructor-time configuration of a `ToolCallFenceDetector`. -/
structure DetectorConfig where
  fencePatterns : List FencePattern
  enablePythonStyle : Bool
deriving DecidableEq

/-- The defaults applied by the constructor: `EXTENDED_FENCE_PATTERNS` and
python-style detection on. -/
def defaultDetectorConfig : DetectorConfig := ⟨EXTENDED_FENCE_PATTERNS, true⟩

/-- `this.fenceStarts = this.fencePatterns.map((p) => p.start)`. -/
def fenceStartsOf (cfg : DetectorConfig) : List (List Char) :=
  cfg.fencePatterns.map (fun p => p.start)

/-- Word character of the JS `\w` class. -/
def isWordCh (c : Char) : Bool :=
  c.isDigit || ('a' ≤ c && c ≤ 'z') || ('A' ≤ c && c ≤ 'Z') || c == '_'

/-- Match of the regex `\[(\w+)\(` at exactly position `i`: a `[`, a maximal
non-empty word run, then `(`.  Returns the matched text.  (Backtracking cannot
produce any other match at `i` because a shorter word run is followed by a word
character, never `(`.) -/
def pyMatchAt (cs : List Char) (i : Nat) : Option (List Char) :=
  match getCharAt cs i with
  | some c =>
    if c == '[' then
      let run := (cs.drop (i + 1)).takeWhile isWordCh
      if decide (0 < run.length) && getCharAt cs (i + 1 + run.length) == some '(' then
        some ('[' :: (run ++ ['(']))
      else none
    else none
  | none => none

/-- First position `≥ i` where `\[(\w+)\(` matches (fuel-driven scan). -/
def pyFirstFrom : Nat → List Char → Nat → Option (Nat × List Char)
  | 0, _, _ => none
  | fuel + 1, cs, i =>
    if cs.length < i then none
    else match pyMatchAt cs i with
      | some m => some (i, m)
      | none => pyFirstFrom fuel cs (i + 1)

/-- First match of the python-style regex in `cs`
(`this.pythonStyleRegex.exec(text)` after `lastIndex = 0`). -/
def pyFirstMatch (cs : List Char) : Option (Nat × List Char) :=
  pyFirstFrom (cs.length + 1) cs 0

/-- Result of `findFenceStart` when a start was found (the source's `-1` case is
rendered as `none`). -/
structure FenceStartMatch where
  index : Nat
  matchedPrefix : List Char
  pattern : FencePattern
deriving DecidableEq

/-- The literal-marker loop of `findFenceStart`: earliest `indexOf` hit wins,
with the earlier-declared pattern winning ties (strict `<`). -/
def findLiteralStart (cs : List Char) (pats : List FencePattern) : Option FenceStartMatch :=
  pats.foldl
    (fun best p =>
      match firstIdxOf cs p.start with
      | none => best
      | some idx =>
        match best with
        | none => some ⟨idx, p.start, p⟩
        | some b => if idx < b.index then some ⟨idx, p.start, p⟩ else best)
    none

/-- `ToolCallFenceDetector.findFenceStart(text)`: literal markers first, then the
python-style regex, which wins only with a strictly smaller index; for a
python-style hit a fresh pattern is constructed with end marker `)]` and
reconstruction prefix equal to the matched text. -/
def findFenceStart (cfg : DetectorConfig) (cs : List Char) : Option FenceStartMatch :=
  let lit := findLiteralStart cs cfg.fencePatterns
  if cfg.enablePythonStyle then
    match pyFirstMatch cs with
    | none => lit
    | some im =>
      match lit with
      | none => some ⟨im.1, im.2, ⟨im.2, ")]".toList, im.2, true⟩⟩
      | some b =>
        if im.1 < b.index then some ⟨im.1, im.2, ⟨im.2, ")]".toList, im.2, true⟩⟩ else lit
  else lit

/-- `StreamingFenceResult` from the detector module. -/
structure StreamingFenceResult where
  inFence : Bool
  safeContent : List Char
  completeFence : Option (List Char)
  textAfterFence : List Char
deriving DecidableEq

/-- Mutable state of a `ToolCallFenceDetector` instance. -/
structure DetectorState where
  buffer : List Char
  inFence : Bool
  fenceStartBuffer : List Char
  currentFencePattern : Option FencePattern
deriving DecidableEq

/-- Detector state at construction. -/
def initialDetectorState : DetectorState := ⟨[], false, [], none⟩

/-- Detector state extended with ghost accounting (never read by the detector
logic): `emitted` is the interleaving of out-of-fence safe content with every
consumed fence region so far, and `consumedStartNl` is the exact text consumed
for the current fence's start marker (plus the newline stripped after a
markdown-style start, when present). -/
structure GhostDetectorState where
  d : DetectorState
  emitted : List Char
  consumedStartNl : List Char
deriving DecidableEq

/-- Ghost state at construction. -/
def initialGhostState : GhostDetectorState := ⟨initialDetectorState, [], []⟩

/-- `ToolCallFenceDetector.detectStreamingFence()`, with ghost accounting.
The detector fields evolve exactly as in the source; the two ghost fields only
record what was emitted or consumed. -/
def detectStreamingFenceG (cfg : DetectorConfig) (g : GhostDetectorState) :
    StreamingFenceResult × GhostDetectorState :=
  let st := g.d
  if st.inFence = false then
    match findFenceStart cfg st.buffer with
    | none =>
      let overlap := computeOverlapLength st.buffer (fenceStartsOf cfg)
      let safeLen := st.buffer.length - overlap
      let safe := st.buffer.take safeLen
      (⟨false, safe, none, []⟩,
        ⟨{ st with buffer := st.buffer.drop safeLen }, g.emitted ++ safe, g.consumedStartNl⟩)
    | some m =>
      let prefixText := st.buffer.take m.index
      let b1 := st.buffer.drop (m.index + m.matchedPrefix.length)
      let strip := startsWithL m.pattern.start ("```".toList) && startsWithL b1 ("\n".toList)
      let b2 := if strip then b1.drop 1 else b1
      (⟨true, prefixText, none, []⟩,
        ⟨⟨b2, true, [], some m.pattern⟩,
          g.emitted ++ prefixText,
          m.matchedPrefix ++ (if strip then [('\n' : Char)] else [])⟩)
  else
    let fenceEnd := (st.currentFencePattern.map FencePattern.endMarker).getD ("```".toList)
    match firstIdxOf st.buffer fenceEnd with
    | none =>
      let overlap := computeOverlapLength st.buffer [fenceEnd]
      let safeLen := st.buffer.length - overlap
      if 0 < safeLen then
        let safe := st.buffer.take safeLen
        (⟨true, safe, none, []⟩,
          ⟨{ st with
              buffer := st.buffer.drop safeLen
              fenceStartBuffer := st.fenceStartBuffer ++ safe },
            g.emitted, g.consumedStartNl⟩)
      else (⟨true, [], none, []⟩, g)
    | some cidx =>
      let fenceContent := st.buffer.take cidx
      let fsb := st.fenceStartBuffer ++ fenceContent
      let recon := (st.currentFencePattern.map FencePattern.reconstructStart).getD
        ("```tool_call\n".toList)
      let complete := recon ++ fsb ++ fenceEnd
      let after := st.buffer.drop (cidx + fenceEnd.length)
      (⟨false, fenceContent, some complete, after⟩,
        ⟨⟨after, false, [], none⟩,
          g.emitted ++ g.consumedStartNl ++ fsb ++ fenceEnd, []⟩)

/-- `detectStreamingFence` without the ghost bookkeeping. -/
def detectStreamingFence (cfg : DetectorConfig) (st : DetectorState) :
    StreamingFenceResult × DetectorState :=
  let r := detectStreamingFenceG cfg ⟨st, [], []⟩
  (r.1, r.2.d)

/-- One caller-visible operation on a detector: `addChunk` or one
`detectStreamingFence` call. -/
inductive DetectorOp where
  | add (chunk : List Char)
  | det
deriving DecidableEq

/-- Applies one operation to the ghost-instrumented detector. -/
def applyOpG (cfg : DetectorConfig) (g : GhostDetectorState) : DetectorOp → GhostDetectorState
  | .add c => { g with d := { g.d with buffer := g.d.buffer ++ c } }
  | .det => (detectStreamingFenceG cfg g).2

/-- Runs a whole trace of operations from the initial state. -/
def runTrace (cfg : DetectorConfig) (ops : List DetectorOp) : GhostDetectorState :=
  ops.foldl (applyOpG cfg) initialGhostState

/-- Total text fed to the detector by a trace. -/
def inputOfOps : List DetectorOp → List Char
  | [] => []
  | .add c :: rest => c ++ inputOfOps rest
  | .det :: rest => inputOfOps rest

/-- Text a single operation feeds to the detector. -/
def inputOfOp : DetectorOp → List Char
  | .add c => c
  | .det => []

/-- The in-progress fence region: consumed start marker (with its newline) plus
the accumulated fence body. -/
def pendingRegion (g : GhostDetectorState) : List Char :=
  if g.d.inFence then g.consumedStartNl ++ g.d.fenceStartBuffer else []

/-- Complete accounting of a ghost state: everything emitted, the pending fence
region, and the retained buffer, in stream order. -/
def accountOf (g : GhostDetectorState) : List Char :=
  g.emitted ++ pendingRegion g ++ g.d.buffer

/-- Drives `detectStreamingFence` until the state stops changing (the caller
loop "until no further progress is possible"), recording for each call the
pre-call `inFence` flag and the returned result; fuel-driven. -/
def detectLoop (cfg : DetectorConfig) :
    Nat → GhostDetectorState → List (Bool × StreamingFenceResult) × GhostDetectorState
  | 0, g => ([], g)
  | fuel + 1, g =>
    let pre := g.d.inFence
    let r := detectStreamingFenceG cfg g
    if r.2 = g then ([], g)
    else
      let rest := detectLoop cfg fuel r.2
      ((pre, r.1) :: rest.1, rest.2)

/-- Feeds each chunk with `addChunk`, then drives `detectStreamingFence` to
quiescence, accumulating the recorded calls. -/
def driveChunks (cfg : DetectorConfig) (chunks : List (List Char)) :
    List (Bool × StreamingFenceResult) × GhostDetectorState :=
  chunks.foldl
    (fun acc c =>
      let g1 := { acc.2 with d := { acc.2.d with buffer := acc.2.d.buffer ++ c } }
      let r := detectLoop cfg (g1.d.buffer.length + 1) g1
      (acc.1 ++ r.1, r.2))
    ([], initialGhostState)

/-- The output the original claim describes: safe content of out-of-fence calls,
interleaved at each fence completion with the reconstructed `completeFence`. -/
def claimConcat (rs : List (Bool × StreamingFenceResult)) : List Char :=
  rs.foldl
    (fun acc pr =>
      acc ++ (if pr.1 = false then pr.2.safeContent else []) ++ pr.2.completeFence.getD [])
    []

/-- All completed fences reported during the recorded calls, in order. -/
def fencesOf (rs : List (Bool × StreamingFenceResult)) : List (List Char) :=
  rs.filterMap (fun pr => pr.2.completeFence)

/-! ## JSON values and `JSON.parse` -/

/-- JSON values as produced by `JSON.parse`.  Numbers keep their source text:
no claim depends on float arithmetic, only on zero-ness for JS truthiness. -/
inductive Jv where
  | jnull
  | jbool (b : Bool)
  | jnum (raw : List Char)
  | jstr (s : List Char)
  | jarr (xs : List Jv)
  | jobj (fields : List (List Char × Jv))

/-- Whitespace accepted by the JSON grammar (stricter than JS `\s`). -/
def isJsonWs (c : Char) : Bool := c == ' ' || c == '\t' || c == '\n' || c == '\r'

/-- Single-quote character, written via its code point. -/
def sqCh : Char := Char.ofNat 39

/-- Assignment `obj[key] = value` on an association list: overwrites the first
binding of the key in place, else appends (JS object insertion semantics, also
used by `JSON.parse` for duplicate keys). -/
def assocSet (fs : List (List Char × Jv)) (k : List Char) (v : Jv) :
    List (List Char × Jv) :=
  match fs with
  | [] => [(k, v)]
  | (k', v') :: rest => if k' == k then (k, v) :: rest else (k', v') :: assocSet rest k v

/-- Property lookup on an association list (keys are unique by `assocSet`). -/
def lookupField (fs : List (List Char × Jv)) (k : List Char) : Option Jv :=
  match fs with
  | [] => none
  | (k', v) :: rest => if k' == k then some v else lookupField rest k

/-- JSON number literal: `-?(0|[1-9][0-9]*)(\.[0-9]+)?([eE][+-]?[0-9]+)?`,
returned as its raw text plus the remaining input. -/
def parseJsonNumber (cs : List Char) : Except Unit (Jv × List Char) :=
  let (sgn, cs1) :=
    match cs with
    | '-' :: rest => ([('-' : Char)], rest)
    | _ => ([], cs)
  match cs1 with
  | [] => .error ()
  | c :: rest =>
    if c == '0' then
      let ip := [c]
      let cs2 := rest
      let (fp, cs3) :=
        match cs2 with
        | '.' :: r =>
          let ds := r.takeWhile Char.isDigit
          if ds.isEmpty then ([], cs2) else ('.' :: ds, r.drop ds.length)
        | _ => ([], cs2)
      if (match cs2 with | '.' :: r => (r.takeWhile Char.isDigit).isEmpty | _ => false) then
        .error ()
      else
        let (ep, cs4) :=
          match cs3 with
          | e :: r =>
            if e == 'e' || e == 'E' then
              let (sg, r2) := match r with
                | s :: r' => if s == '+' || s == '-' then ([s], r') else ([], r)
                | [] => ([], r)
              let ds := r2.takeWhile Char.isDigit
              if ds.isEmpty then ([], cs3) else (e :: (sg ++ ds), r2.drop ds.length)
            else ([], cs3)
          | [] => ([], cs3)
        if (match cs3 with
            | e :: r =>
              (e == 'e' || e == 'E') &&
                (let r2 := match r with
                  | s :: r' => if s == '+' || s == '-' then r' else r
                  | [] => r
                 (r2.takeWhile Char.isDigit).isEmpty)
            | [] => false) then
          .error ()
        else .ok (.jnum (sgn ++ ip ++ fp ++ ep), cs4)
    else if c.isDigit then
      let ds := (c :: rest).takeWhile Char.isDigit
      let cs2 := (c :: rest).drop ds.length
      let (fp, cs3) :=
        match cs2 with
        | '.' :: r =>
          let fs := r.takeWhile Char.isDigit
          if fs.isEmpty then ([], cs2) else ('.' :: fs, r.drop fs.length)
        | _ => ([], cs2)
      if (match cs2 with | '.' :: r => (r.takeWhile Char.isDigit).isEmpty | _ => false) then
        .error ()
      else
        let (ep, cs4) :=
          match cs3 with
          | e :: r =>
            if e == 'e' || e == 'E' then
              let (sg, r2) := match r with
                | s :: r' => if s == '+' || s == '-' then ([s], r') else ([], r)
                | [] => ([], r)
              let es := r2.takeWhile Char.isDigit
              if es.isEmpty then ([], cs3) else (e :: (sg ++ es), r2.drop es.length)
            else ([], cs3)
          | [] => ([], cs3)
        if (match cs3 with
            | e :: r =>
              (e == 'e' || e == 'E') &&
                (let r2 := match r with
                  | s :: r' => if s == '+' || s == '-' then r' else r
                  | [] => r
                 (r2.takeWhile Char.isDigit).isEmpty)
            | [] => false) then
          .error ()
        else .ok (.jnum (sgn ++ ds ++ fp ++ ep), cs4)
    else .error ()

/-- JSON escape sequence after a backslash; `\uXXXX` produces the encoded code
point (surrogate pairing is not modelled; no claim exercises it). -/
def jsonEscChar (c : Char) (rest : List Char) : Except Unit (Char × List Char) :=
  if c == '"' then .ok ('"', rest)
  else if c == '\\' then .ok ('\\', rest)
  else if c == '/' then .ok ('/', rest)
  else if c == 'b' then .ok (Char.ofNat 8, rest)
  else if c == 'f' then .ok (Char.ofNat 12, rest)
  else if c == 'n' then .ok ('\n', rest)
  else if c == 'r' then .ok ('\r', rest)
  else if c == 't' then .ok ('\t', rest)
  else if c == 'u' then
    match rest with
    | a :: b :: cc :: d :: rest2 =>
      let hex := fun (x : Char) =>
        if x.isDigit then some (x.toNat - 48)
        else if 'a' ≤ x && x ≤ 'f' then some (x.toNat - 87)
        else if 'A' ≤ x && x ≤ 'F' then some (x.toNat - 55)
        else none
      match hex a, hex b, hex cc, hex d with
      | some ha, some hb, some hc, some hd =>
        .ok (Char.ofNat (((ha * 16 + hb) * 16 + hc) * 16 + hd), rest2)
      | _, _, _, _ => .error ()
    | _ => .error ()
  else .error ()

mutual

/-- One JSON value, starting after optional whitespace; returns the value and
the unconsumed remainder. -/
def parseJsonValue : Nat → List Char → Except Unit (Jv × List Char)
  | 0, _ => .error ()
  | fuel + 1, cs =>
    match cs.dropWhile isJsonWs with
    | [] => .error ()
    | c :: rest =>
      if c == lbrace then
        match rest.dropWhile isJsonWs with
        | d :: rest2 =>
          if d == rbrace then .ok (.jobj [], rest2)
          else parseJsonMembers fuel (d :: rest2) []
        | [] => .error ()
      else if c == '[' then
        match rest.dropWhile isJsonWs with
        | d :: rest2 =>
          if d == ']' then .ok (.jarr [], rest2)
          else parseJsonElements fuel (d :: rest2) []
        | [] => .error ()
      else if c == '"' then
        match parseJsonString fuel rest [] with
        | .ok sr => .ok (.jstr sr.1, sr.2)
        | .error e => .error e
      else if startsWithL (c :: rest) ("true".toList) then .ok (.jbool true, rest.drop 3)
      else if startsWithL (c :: rest) ("false".toList) then .ok (.jbool false, rest.drop 4)
      else if startsWithL (c :: rest) ("null".toList) then .ok (.jnull, rest.drop 3)
      else parseJsonNumber (c :: rest)

/-- Members of an object after `{` and leading whitespace (at least one member;
the empty object is handled by the caller). -/
def parseJsonMembers : Nat → List Char → List (List Char × Jv) →
    Except Unit (Jv × List Char)
  | 0, _, _ => .error ()
  | fuel + 1, cs, acc =>
    match cs with
    | '"' :: rest =>
      match parseJsonString fuel rest [] with
      | .error e => .error e
      | .ok kr =>
        match kr.2.dropWhile isJsonWs with
        | ':' :: rest2 =>
          match parseJsonValue fuel rest2 with
          | .error e => .error e
          | .ok vr =>
            let acc' := assocSet acc kr.1 vr.1
            match vr.2.dropWhile isJsonWs with
            | ',' :: rest3 =>
              match rest3.dropWhile isJsonWs with
              | [] => .error ()
              | d :: rest4 => parseJsonMembers fuel (d :: rest4) acc'
            | d :: rest3 => if d == rbrace then .ok (.jobj acc', rest3) else .error ()
            | [] => .error ()
        | _ => .error ()
    | _ => .error ()

/-- Elements of an array after `[` and leading whitespace (at least one). -/
def parseJsonElements : Nat → List Char → List Jv → Except Unit (Jv × List Char)
  | 0, _, _ => .error ()
  | fuel + 1, cs, acc =>
    match parseJsonValue fuel cs with
    | .error e => .error e
    | .ok vr =>
      match vr.2.dropWhile isJsonWs with
      | ',' :: rest2 => parseJsonElements fuel rest2 (acc ++ [vr.1])
      | ']' :: rest2 => .ok (.jarr (acc ++ [vr.1]), rest2)
      | _ => .error ()

/-- Body of a JSON string after the opening quote. -/
def parseJsonString : Nat → List Char → List Char → Except Unit (List Char × List Char)
  | 0, _, _ => .error ()
  | fuel + 1, cs, acc =>
    match cs with
    | [] => .error ()
    | c :: rest =>
      if c == '"' then .ok (acc, rest)
      else if c == '\\' then
        match rest with
        | [] => .error ()
        | e :: rest2 =>
          match jsonEscChar e rest2 with
          | .error err => .error err
          | .ok er => parseJsonString fuel er.2 (acc ++ [er.1])
      else if decide (c.toNat < 32) then .error ()
      else parseJsonString fuel rest (acc ++ [c])

end

/-- `JSON.parse(s)`: a single JSON value, with no trailing garbage. -/
def jsonParse (cs : List Char) : Except Unit Jv :=
  match parseJsonValue (2 * cs.length + 2) cs with
  | .error e => .error e
  | .ok vr => if (vr.2.dropWhile isJsonWs).isEmpty then .ok vr.1 else .error ()

/-- Is a JSON number literal zero?  True exactly when every digit of the
mantissa is `0` (the exponent cannot change zero-ness; float underflow of tiny
non-zero literals is not modelled). -/
def jnumIsZero (raw : List Char) : Bool :=
  (raw.takeWhile (fun c => !(c == 'e' || c == 'E'))).all (fun c => !c.isDigit || c == '0')

/-- JS truthiness of a parsed JSON value. -/
def jsTruthy : Jv → Bool
  | .jnull => false
  | .jbool b => b
  | .jnum raw => !jnumIsZero raw
  | .jstr s => !s.isEmpty
  | .jarr _ => true
  | .jobj _ => true

/-- JS truthiness with `undefined` (`none`) being falsy. -/
def jsTruthyO : Option Jv → Bool
  | none => false
  | some v => jsTruthy v

/-- JS property access `v[k]`: throws (TypeError) on `null`, yields `undefined`
on any non-object, looks the key up on objects.  (The four keys the parser reads
are never built-in properties of arrays or strings.) -/
def getField : Jv → List Char → Except Unit (Option Jv)
  | .jnull, _ => .error ()
  | .jobj fs, k => .ok (lookupField fs k)
  | _, _ => .ok none

/-! ## ToolCallParser: `parseJsonFunctionCalls` -/

/-- `ParseJsonFunctionCallsOptions` (TS optional fields are modelled as a full
record; `{...DEFAULT_OPTIONS, ...options}` is then the identity). -/
structure ParseJsonFunctionCallsOptions where
  supportXmlTags : Bool
  supportPythonStyle : Bool
  supportParametersField : Bool
deriving DecidableEq

/-- `DEFAULT_OPTIONS`. -/
def DEFAULT_OPTIONS : ParseJsonFunctionCallsOptions := ⟨true, true, true⟩

/-- `ParsedToolCall` (the `type: "tool-call"` literal field is omitted; id, name
and args hold whatever runtime values the JS code stores there). -/
structure ParsedToolCall where
  toolCallId : Jv
  toolName : Jv
  args : Jv

/-- `ParsedResponse`. -/
structure ParsedResponse where
  toolCalls : List ParsedToolCall
  textContent : List Char

/-- Case-insensitive `startsWithL` (effect of the regex `i` flag on letters). -/
def ciStartsWith : List Char → List Char → Bool
  | _, [] => true
  | [], _ :: _ => false
  | a :: as, b :: bs => (a.toLower == b.toLower) && ciStartsWith as bs

/-- Case-insensitive first occurrence at or after running index `i`. -/
def ciFirstIdxOfAux : List Char → List Char → Nat → Option Nat
  | [], pat, i => if ciStartsWith [] pat then some i else none
  | x :: t, pat, i =>
    if ciStartsWith (x :: t) pat then some i else ciFirstIdxOfAux t pat (i + 1)

/-- Case-insensitive `indexOf`. -/
def ciFirstIdxOf (xs pat : List Char) : Option Nat := ciFirstIdxOfAux xs pat 0

/-- Which alternative of the combined parser regex matched, with its captured
groups. -/
inductive MatchKind where
  | md (inner : List Char)
  | xml (inner : List Char)
  | py (pyName : List Char) (pyArgs : List Char)

/-- One element of `response.matchAll(regex)`: the matched text, the index one
past its end, and the captures. -/
structure RegexMatch where
  full : List Char
  stop : Nat
  kind : MatchKind

/-- Match of ``
```tool[_-]?call\s*([\s\S]*?)``` `` at position `i` (case-insensitive letters).
The greedy `\s*` followed by the lazy group ends the group at the first
` ``` ` after the whitespace run (backtracking cannot do better: backticks are
not whitespace). -/
def mdMatchAt (cs : List Char) (i : Nat) : Option RegexMatch :=
  if startsWithL (cs.drop i) ("```".toList) && ciStartsWith (cs.drop (i + 3)) ("tool".toList) then
    let j := i + 7
    let sepHit := (getCharAt cs j == some '_' || getCharAt cs j == some '-') &&
      ciStartsWith (cs.drop (j + 1)) ("call".toList)
    let p : Option Nat :=
      if sepHit then some (j + 5)
      else if ciStartsWith (cs.drop j) ("call".toList) then some (j + 4)
      else none
    match p with
    | none => none
    | some p0 =>
      let q := p0 + countWsFrom cs p0
      match firstIdxOf (cs.drop q) ("```".toList) with
      | none => none
      | some rel =>
        some ⟨(cs.drop i).take (q + rel + 3 - i), q + rel + 3, .md ((cs.drop q).take rel)⟩
  else none

/-- Match of `<tool_call>\s*([\s\S]*?)\s*</tool_call>` at position `i`
(case-insensitive letters).  The lazy group is minimal, so the match ends at the
first `</tool_call>` after the leading whitespace run, and the trailing `\s*`
absorbs the maximal whitespace run before it. -/
def xmlMatchAt (cs : List Char) (i : Nat) : Option RegexMatch :=
  if ciStartsWith (cs.drop i) ("<tool_call>".toList) then
    let p := i + 11
    let q := p + countWsFrom cs p
    match ciFirstIdxOf (cs.drop q) ("</tool_call>".toList) with
    | none => none
    | some rel =>
      let body := (cs.drop q).take rel
      let inner := (body.reverse.dropWhile isJsWs).reverse
      some ⟨(cs.drop i).take (q + rel + 12 - i), q + rel + 12, .xml inner⟩
  else none

/-- Match of `\[(\w+)\(([^)]*)\)\]` at position `i`: a `[`, a non-empty word
run, `(`, a run of non-`)` characters, then `)]`.  (The greedy subpatterns make
this the only possible match at `i`.) -/
def pyCallMatchAt (cs : List Char) (i : Nat) : Option RegexMatch :=
  match getCharAt cs i with
  | some c =>
    if c == '[' then
      let run := (cs.drop (i + 1)).takeWhile isWordCh
      if decide (0 < run.length) && getCharAt cs (i + 1 + run.length) == some '(' then
        let a0 := i + 2 + run.length
        let args := (cs.drop a0).takeWhile (fun d => !(d == ')'))
        let e := a0 + args.length
        if getCharAt cs e == some ')' && getCharAt cs (e + 1) == some ']' then
          some ⟨(cs.drop i).take (e + 2 - i), e + 2, .py run args⟩
        else none
      else none
    else none
  | none => none

/-- Combined alternation at one position, in declaration order (the three
alternatives start with distinct characters, so order cannot matter). -/
def matchAtPos (opts : ParseJsonFunctionCallsOptions) (cs : List Char) (i : Nat) :
    Option RegexMatch :=
  match mdMatchAt cs i with
  | some m => some m
  | none =>
    match (if opts.supportXmlTags then xmlMatchAt cs i else none) with
    | some m => some m
    | none => if opts.supportPythonStyle then pyCallMatchAt cs i else none

/-- Leftmost match at a position `≥ i` (fuel-driven scan of start positions). -/
def findMatchFrom (opts : ParseJsonFunctionCallsOptions) :
    Nat → List Char → Nat → Option RegexMatch
  | 0, _, _ => none
  | fuel + 1, cs, i =>
    if cs.length < i then none
    else match matchAtPos opts cs i with
      | some m => some m
      | none => findMatchFrom opts fuel cs (i + 1)

/-- `matchAll` loop: repeatedly take the leftmost match from the current
`lastIndex` (every match is non-empty, so `cs.length + 1` rounds suffice). -/
def regexMatchesAux (opts : ParseJsonFunctionCallsOptions) (cs : List Char) :
    Nat → Nat → List RegexMatch
  | 0, _ => []
  | fuel + 1, lastIndex =>
    match findMatchFrom opts (cs.length + 1) cs lastIndex with
    | none => []
    | some m => m :: regexMatchesAux opts cs fuel m.stop

/-- `Array.from(response.matchAll(regex))` for the combined regex of
`buildRegex(options)`. -/
def regexMatches (opts : ParseJsonFunctionCallsOptions) (cs : List Char) :
    List RegexMatch :=
  regexMatchesAux opts cs (cs.length + 1) 0

/-- JS `String.substring` (clamps both arguments to the length and swaps them
when start exceeds end). -/
def jsSubstring (v : List Char) (a b : Nat) : List Char :=
  let a' := min a v.length
  let b' := min b v.length
  ((v.drop (min a' b')).take (max a' b' - min a' b'))

/-- Does the list end with the given character? -/
def endsWithCh (v : List Char) (c : Char) : Bool :=
  match v.reverse with
  | [] => false
  | x :: _ => x == c

/-- Quote stripping of the python-style branch: remove a matching pair of
surrounding double or single quotes (`value.substring(1, value.length - 1)`). -/
def stripQuotesPy (value : List Char) : List Char :=
  if (startsWithL value ['"'] && endsWithCh value '"') ||
      (startsWithL value [sqCh] && endsWithCh value sqCh) then
    jsSubstring value 1 (value.length - 1)
  else value

/-- Argument-object construction of the python-style branch (lines 84-102):
split on every comma, trim, keep pairs with `=` at a positive index, trim key
and value, strip quotes, assign. -/
def pythonPairs (pythonArgs : List Char) : List (List Char × Jv) :=
  if (jsTrim pythonArgs).isEmpty then []
  else
    ((splitOnCh ',' pythonArgs).map jsTrim).foldl
      (fun acc pair =>
        match firstIdxOf pair ("=".toList) with
        | some eqIdx =>
          if 0 < eqIdx then
            let key := jsTrim (pair.take eqIdx)
            let value := stripQuotesPy (jsTrim (pair.drop (eqIdx + 1)))
            assocSet acc key (Jv.jstr value)
          else acc
        | none => acc)
      []

/-- The single `ParsedToolCall` produced by the python-style branch; its id is
always freshly generated. -/
def pythonCall (gen : Nat → List Char) (k : Nat) (nm args : List Char) : ParsedToolCall :=
  ⟨Jv.jstr (gen k), Jv.jstr nm, Jv.jobj (pythonPairs args)⟩

/-- Candidate processing shared verbatim by the single-JSON-value path (lines
125-147) and the newline-fallback path (lines 153-176): skip candidates without
a truthy `name` (accessing `name` on `null` throws), select args by `||`,
JSON-parse string args keeping the raw string on failure, and use `call.id`
when truthy, else a generated id (advancing the generator). -/
def processCandidate (gen : Nat → List Char) (opts : ParseJsonFunctionCallsOptions)
    (k : Nat) (call : Jv) : Except Unit (Option ParsedToolCall × Nat) := do
  let nameO ← getField call ("name".toList)
  if jsTruthyO nameO = false then
    return (none, k)
  else
    let argsO ← getField call ("arguments".toList)
    let paramsO ← getField call ("parameters".toList)
    let args0 : Jv :=
      if jsTruthyO argsO then argsO.getD (Jv.jobj [])
      else if opts.supportParametersField && jsTruthyO paramsO then paramsO.getD (Jv.jobj [])
      else Jv.jobj []
    let args1 : Jv :=
      match args0 with
      | .jstr s =>
        match jsonParse s with
        | .ok v => v
        | .error _ => .jstr s
      | v => v
    let idO ← getField call ("id".toList)
    if jsTruthyO idO then
      return (some ⟨idO.getD Jv.jnull, nameO.getD Jv.jnull, args1⟩, k)
    else
      return (some ⟨Jv.jstr (gen k), nameO.getD Jv.jnull, args1⟩, k + 1)

/-- Mutable state threaded through the match loop of `parseJsonFunctionCalls`:
pushed calls, working text, and the id-generator counter. -/
structure PState where
  calls : List ParsedToolCall
  text : List Char
  k : Nat

/-- `for (const call of callsArray) ... toolCalls.push(...)`: a throw aborts the
loop but keeps the pushes made so far (the error value carries that state). -/
def processCandidatesE (gen : Nat → List Char) (opts : ParseJsonFunctionCallsOptions) :
    PState → List Jv → Except PState PState
  | st, [] => .ok st
  | st, c :: rest =>
    match processCandidate gen opts st.k c with
    | .error _ => .error st
    | .ok (none, k') => processCandidatesE gen opts { st with k := k' } rest
    | .ok (some p, k') =>
      processCandidatesE gen opts { st with calls := st.calls ++ [p], k := k' } rest

/-- Newline-fallback (lines 150-181): parse each non-blank line independently,
with a per-line catch that skips the line and continues. -/
def fallbackLines (gen : Nat → List Char) (opts : ParseJsonFunctionCallsOptions) :
    PState → List (List Char) → PState
  | st, [] => st
  | st, l :: rest =>
    let st' :=
      match (do
        let v ← jsonParse (jsTrim l)
        processCandidate gen opts st.k v) with
      | .error _ => st
      | .ok (none, k') => { st with k := k' }
      | .ok (some p, k') => { st with calls := st.calls ++ [p], k := k' }
    fallbackLines gen opts st' rest

/-- Replace the first occurrence of `pat` in `cs` by `repl`
(JS `String.replace` with a string pattern). -/
def replaceFirst (cs pat repl : List Char) : List Char :=
  match firstIdxOf cs pat with
  | none => cs
  | some i => cs.take i ++ repl ++ cs.drop (i + pat.length)

/-- `textContent.replace(/\n{2,}/g, "\n")`: collapse every run of newlines to a
single newline (runs of length one are unchanged by either description). -/
def collapseLFAux : List Char → Bool → List Char
  | [], _ => []
  | c :: rest, prevNl =>
    if c == '\n' then
      if prevNl then collapseLFAux rest true else '\n' :: collapseLFAux rest true
    else c :: collapseLFAux rest false

/-- Newline-run collapapsing of the final text content. -/
def collapseLF (cs : List Char) : List Char := collapseLFAux cs false

/-- Body of one iteration of the match loop, inside the outer `try` (lines
78-182): python-style branch, or inner JSON parse with candidate loop, falling
back to per-line parsing when the single-value path throws. -/
def perMatchBodyE (gen : Nat → List Char) (opts : ParseJsonFunctionCallsOptions)
    (st : PState) (m : RegexMatch) : Except PState PState :=
  match m.kind with
  | .py nm args =>
    .ok { st with calls := st.calls ++ [pythonCall gen st.k nm args], k := st.k + 1 }
  | .md inner | .xml inner =>
    let trimmed := jsTrim inner
    if trimmed.isEmpty then .ok st
    else
      match
        (match jsonParse trimmed with
          | .ok v =>
            processCandidatesE gen opts st (match v with | .jarr xs => xs | v' => [v'])
          | .error _ => .error st) with
      | .ok s => .ok s
      | .error s =>
        .ok (fallbackLines gen opts s
          ((splitOnCh '\n' trimmed).filter (fun l => !(jsTrim l).isEmpty)))

/-- One iteration of the match loop: remove the matched text from the working
copy, then run the body under the outer catch (which logs and continues). -/
def parseStepE (gen : Nat → List Char) (opts : ParseJsonFunctionCallsOptions)
    (st : PState) (m : RegexMatch) : Except PState PState :=
  match perMatchBodyE gen opts { st with text := replaceFirst st.text m.full [] } m with
  | .ok s => .ok s
  | .error s => .ok s

/-- The whole match loop. -/
def parseAllE (gen : Nat → List Char) (opts : ParseJsonFunctionCallsOptions) :
    List RegexMatch → PState → Except PState PState
  | [], st => .ok st
  | m :: rest, st =>
    match parseStepE gen opts st m with
    | .ok s => parseAllE gen opts rest s
    | .error s => .error s

/-- `parseJsonFunctionCalls(response, options)` with exceptions made explicit:
an `error` result would mean an exception escaping to the caller. -/
def parseJsonFunctionCallsE (gen : Nat → List Char) (response : List Char)
    (opts : ParseJsonFunctionCallsOptions) : Except PState ParsedResponse :=
  let ms := regexMatches opts response
  if ms.isEmpty then .ok ⟨[], response⟩
  else
    match parseAllE gen opts ms ⟨[], response, 0⟩ with
    | .ok s => .ok ⟨s.calls, jsTrim (collapseLF s.text)⟩
    | .error s => .error s

/-- `parseJsonFunctionCalls` as the total function the caller sees (the error
branch is dead code by the never-throws theorem). -/
def parseJsonFunctionCalls (gen : Nat → List Char) (response : List Char)
    (opts : ParseJsonFunctionCallsOptions) : ParsedResponse :=
  match parseJsonFunctionCallsE gen response opts with
  | .ok r => r
  | .error s => ⟨s.calls, jsTrim (collapseLF s.text)⟩

/-- A concrete id generator used by concrete runs (any function works; ids only
matter up to being "freshly generated"). -/
def genDemo (k : Nat) : List Char := ("id".toList) ++ natChars k

/-! ## Claim-side auxiliary definitions -/

/-- Property read on a candidate value without the throwing behaviour (usable
once the candidate is known not to be `null`). -/
def fieldOf (call : Jv) (k : List Char) : Option Jv :=
  match call with
  | .jobj fs => lookupField fs k
  | _ => none

/-- Args selection as the amended claim words it: `arguments` whenever truthy,
else `parameters` when the alias is enabled and truthy, else the empty object. -/
def argsSelSpec (opts : ParseJsonFunctionCallsOptions) (call : Jv) : Jv :=
  if jsTruthyO (fieldOf call ("arguments".toList)) then
    (fieldOf call ("arguments".toList)).getD (Jv.jobj [])
  else if opts.supportParametersField && jsTruthyO (fieldOf call ("parameters".toList)) then
    (fieldOf call ("parameters".toList)).getD (Jv.jobj [])
  else Jv.jobj []

/-- String args are JSON-parsed, and kept as the raw string if that fails. -/
def parseIfString (v : Jv) : Jv :=
  match v with
  | .jstr s =>
    match jsonParse s with
    | .ok w => w
    | .error _ => .jstr s
  | w => w

/-- Bracket-call argument pairs as the amended claim words it: split the
argument text on every comma, trim each piece, keep the `key=value` pieces
whose `=` sits at a positive index, trim key and value, strip a matching pair
of surrounding quotes from the value, and assign. -/
def pairsSpecC4 (argText : List Char) : List (List Char × Jv) :=
  if (jsTrim argText).isEmpty then []
  else
    ((splitOnCh ',' argText).map jsTrim).foldl
      (fun acc pair =>
        match firstIdxOf pair ("=".toList) with
        | some eqIdx =>
          if 0 < eqIdx then
            assocSet acc (jsTrim (pair.take eqIdx))
              (Jv.jstr (stripQuotesPy (jsTrim (pair.drop (eqIdx + 1)))))
          else acc
        | none => acc)
      []

/-- The initial scanner-field record (the scalar fields of a fresh state). -/
def freshScan : ScanSub := ⟨false, 0, false, false, false⟩

/-- Invariant carried by a streaming `extractArgumentsDelta` run: `content` is
the text passed to the latest call, `st` the state after it, `acc` the
concatenation of all deltas returned so far.  Before the key is found nothing
has been emitted and the scanner is untouched; afterwards `acc` is exactly the
region of `content` from the value start `v` through the last processed
character, that region replays through the scanner to the current scalar
fields, and the run has either completed or processed through the end. -/
def extractInv (content : List Char) (st : ArgumentsStreamState) (acc : List Char) : Prop :=
  (st.valueStartIndex = none → acc = [] ∧ st.parseIndex = 0 ∧ subOf st = freshScan) ∧
  (∀ v, st.valueStartIndex = some v →
    v ≤ st.parseIndex ∧ st.parseIndex ≤ content.length ∧
    scanLoop ((content.take st.parseIndex).drop v) freshScan
      = ((content.take st.parseIndex).drop v, subOf st, st.parseIndex - v) ∧
    acc = (content.take st.parseIndex).drop v ∧
    (st.complete = true ∨ st.parseIndex = content.length))

/-- Boolean test that each element of `chain` extends (starts with) the
previous one, starting from `c`. -/
def chainExtends (c : List Char) (chain : List (List Char)) : Bool :=
  match chain with
  | [] => true
  | e :: rest => startsWithL e c && chainExtends e rest

/-- The fold of `streamRun`, started from an arbitrary accumulator and state. -/
def streamFoldFrom (chain : List (List Char)) (acc : List Char)
    (st : ArgumentsStreamState) : List Char × ArgumentsStreamState :=
  chain.foldl
    (fun p e =>
      let r := extractArgumentsDelta e p.2
      (p.1 ++ r.1, r.2))
    (acc, st)

/-! ## Helper lemmas -/

theorem startsWithL_iff (p xs : List Char) : startsWithL xs p = true ↔ ∃ t, xs = p ++ t := by
  induction p generalizing xs with
  | nil => simp [startsWithL]
  | cons b bs ih =>
    cases xs with
    | nil => simp [startsWithL]
    | cons a as =>
      simp only [startsWithL, Bool.and_eq_true, beq_iff_eq, ih]
      constructor
      · rintro ⟨rfl, t, rfl⟩
        exact ⟨t, rfl⟩
      · rintro ⟨t, h⟩
        injection h with h1 h2
        exact ⟨h1, t, h2⟩

theorem startsWithL_refl (xs : List Char) : startsWithL xs xs = true := by
  rw [startsWithL_iff]
  exact ⟨[], by simp⟩

theorem startsWithL_length (p xs : List Char) (h : startsWithL xs p = true) :
    p.length ≤ xs.length := by
  rw [startsWithL_iff] at h
  obtain ⟨t, rfl⟩ := h
  simp

theorem startsWithL_decomp (p xs : List Char) (h : startsWithL xs p = true) :
    xs = p ++ xs.drop p.length := by
  rw [startsWithL_iff] at h
  obtain ⟨t, rfl⟩ := h
  simp

theorem firstIdxOfAux_some (xs pat : List Char) (i j : Nat)
    (h : firstIdxOfAux xs pat i = some j) :
    i ≤ j ∧ j - i ≤ xs.length ∧ startsWithL (xs.drop (j - i)) pat = true := by
  induction xs generalizing i with
  | nil =>
    simp only [firstIdxOfAux] at h
    split at h
    · rename_i hs
      injection h with h'
      subst h'
      simpa using hs
    · exact absurd h (by simp)
  | cons x t ih =>
    simp only [firstIdxOfAux] at h
    split at h
    · rename_i hs
      injection h with h'
      subst h'
      simpa using hs
    · obtain ⟨h1, h2, h3⟩ := ih (i + 1) h
      refine ⟨by omega, ?_, ?_⟩
      · simp only [List.length_cons]
        omega
      · have he : j - i = (j - (i + 1)) + 1 := by omega
        rw [he]
        simpa using h3

theorem firstIdxOf_some (xs pat : List Char) (j : Nat) (h : firstIdxOf xs pat = some j) :
    j ≤ xs.length ∧ startsWithL (xs.drop j) pat = true := by
  have := firstIdxOfAux_some xs pat 0 j h
  simpa using this

theorem firstIdxOf_decomp (xs pat : List Char) (j : Nat) (h : firstIdxOf xs pat = some j) :
    xs = xs.take j ++ pat ++ xs.drop (j + pat.length) := by
  obtain ⟨hle, hs⟩ := firstIdxOf_some xs pat j h
  have hd := startsWithL_decomp pat (xs.drop j) hs
  have hdd : xs.drop (j + pat.length) = (xs.drop j).drop pat.length := by
    rw [List.drop_drop]
  calc xs = xs.take j ++ xs.drop j := (List.take_append_drop j xs).symm
    _ = xs.take j ++ (pat ++ (xs.drop j).drop pat.length) := by rw [← hd]
    _ = xs.take j ++ pat ++ xs.drop (j + pat.length) := by rw [hdd, List.append_assoc]

/-! ## Claim theorems -/

/-- Claim C9: once `complete` is true, `extractArgumentsDelta` returns the empty
string and leaves every field of the state unchanged, so calls after completion
are idempotent. -/
theorem claim9_theorem (content : List Char) (state : ArgumentsStreamState)
    (h : state.complete = true) :
    extractArgumentsDelta content state = ([], state) := by
  simp [extractArgumentsDelta, h]

/-- Witness for C9 at a concrete completed state and content. -/
theorem claim9_witness :
    (⟨5, some 3, 7, true, 0, false, false, true⟩ : ArgumentsStreamState).complete = true ∧
      extractArgumentsDelta ("xyz".toList) ⟨5, some 3, 7, true, 0, false, false, true⟩
        = ([], ⟨5, some 3, 7, true, 0, false, false, true⟩) :=
  ⟨rfl, claim9_theorem ("xyz".toList) ⟨5, some 3, 7, true, 0, false, false, true⟩ rfl⟩

/-- Claim C6 (code bug): `Math.random().toString(36)` can be shorter than
`"0."` plus seven digits — e.g. `Math.random() = 0.5` gives `"0.i"` — and then
`slice(2, 9)` yields fewer than 7 characters, so the generated id does not match
`call_\d+_[a-z0-9]{7}` (which the repository's own test asserts); it does match
the relaxed `call_\d+_[a-z0-9]{0,7}`. -/
theorem claim6_theorem :
    isBase36Repr ("0.i".toList) = true ∧
      generateToolCallId 0 ("0.i".toList) = ("call_0_i".toList) ∧
      idMatches7 (generateToolCallId 0 ("0.i".toList)) = false ∧
      idMatchesUpTo7 (generateToolCallId 0 ("0.i".toList)) = true := by
  refine ⟨by decide, by decide, by decide, by decide⟩

/-- Counterexample to C2 as stated: splitting `"arguments": {}` right after the
colon makes the streaming value start before the space, so the concatenated
deltas contain a leading space the one-shot extraction does not. -/
theorem claim2_counterexample :
    chainTo [("\"arguments\":".toList), ("\"arguments\": \x7b\x7d".toList)]
        ("\"arguments\": \x7b\x7d".toList) = true ∧
      (streamRun [("\"arguments\":".toList), ("\"arguments\": \x7b\x7d".toList)]).1
        = (" \x7b\x7d".toList) ∧
      (extractArgumentsDelta ("\"arguments\": \x7b\x7d".toList) createArgumentsStreamState).1
        = ("\x7b\x7d".toList) ∧
      (streamRun [("\"arguments\":".toList), ("\"arguments\": \x7b\x7d".toList)]).1
        ≠ (extractArgumentsDelta ("\"arguments\": \x7b\x7d".toList) createArgumentsStreamState).1
    := by
  refine ⟨by decide, by decide, by decide, by decide⟩

/-- Counterexample to C1 as stated.  First: a markdown fence start not followed
by a newline, in a single chunk, makes the reconstructed `completeFence`
(which always re-inserts the newline) differ from the original text.  Second: a
well-formed bracket-call message split inside its start marker is emitted
entirely as plain text and never produces a fence (hence no `ParsedToolCall`),
unlike the one-chunk run, whose fence parses to one call. -/
theorem claim1_counterexample :
    claimConcat (driveChunks defaultDetectorConfig [("```tool_call\x7b\x7d```".toList)]).1
        ≠ ("```tool_call\x7b\x7d```".toList) ∧
      fencesOf (driveChunks defaultDetectorConfig [("[f(a=1)]".toList)]).1
        = [("[f(a=1)]".toList)] ∧
      (parseJsonFunctionCalls genDemo ("[f(a=1)]".toList) DEFAULT_OPTIONS).toolCalls.length
        = 1 ∧
      fencesOf (driveChunks defaultDetectorConfig [("[f".toList), ("(a=1)]".toList)]).1
        = [] ∧
      claimConcat (driveChunks defaultDetectorConfig [("[f".toList), ("(a=1)]".toList)]).1
        = ("[f(a=1)]".toList) := by
  refine ⟨by decide, by decide, by decide, by decide, by decide⟩

/-- Counterexample to C3 as stated: a candidate with `"arguments": ""` (present
and non-null) does not keep the empty string — `||` is falsy-driven, so the
code falls through to `parameters` and yields an object, not the string. -/
theorem claim3_counterexample :
    (parseJsonFunctionCalls genDemo
          (("```tool_call\n\x7b\"name\":\"t\",\"arguments\":\"\"," ++
            "\"parameters\":\x7b\"x\":\"1\"\x7d\x7d\n```").toList)
          DEFAULT_OPTIONS).toolCalls.map (fun c => c.args)
      = [Jv.jobj [(("x".toList), Jv.jstr ("1".toList))]] ∧
      Jv.jobj [(("x".toList), Jv.jstr ("1".toList))] ≠ Jv.jstr [] := by
  refine ⟨rfl, fun h => Jv.noConfusion h⟩

/-- Counterexample to C4 as stated: a comma inside a quoted value does separate
pairs — `split(",")` is not quote-aware — so `[f(a="x,y")]` yields the mangled
value `"x` (with a stray quote) instead of `x,y`. -/
theorem claim4_counterexample :
    (parseJsonFunctionCalls genDemo ("[f(a=\"x,y\")]".toList) DEFAULT_OPTIONS).toolCalls.map
        (fun c => c.args)
      = [Jv.jobj [(("a".toList), Jv.jstr ("\"x".toList))]] ∧
      ("\"x".toList) ≠ ("x,y".toList) := by
  refine ⟨rfl, by decide⟩

theorem parseStepE_ok (gen : Nat → List Char) (opts : ParseJsonFunctionCallsOptions)
    (st : PState) (m : RegexMatch) : ∃ s, parseStepE gen opts st m = .ok s := by
  unfold parseStepE
  cases perMatchBodyE gen opts { st with text := replaceFirst st.text m.full [] } m with
  | ok s => exact ⟨s, rfl⟩
  | error s => exact ⟨s, rfl⟩

theorem parseAllE_ok (gen : Nat → List Char) (opts : ParseJsonFunctionCallsOptions) :
    ∀ (ms : List RegexMatch) (st : PState), ∃ s, parseAllE gen opts ms st = .ok s := by
  intro ms
  induction ms with
  | nil => exact fun st => ⟨st, rfl⟩
  | cons m rest ih =>
    intro st
    obtain ⟨s, hs⟩ := parseStepE_ok gen opts st m
    simp only [parseAllE, hs]
    exact ih s

/-- Claim C5: `parseJsonFunctionCalls` never lets an exception escape — every
run of the explicit-exception model ends in `ok` — and in particular a fence
body that is not valid JSON produces zero tool calls, and a fence body parsing
to `null` (no usable name) produces zero calls and no error while the calls of
a later fence in the same response are still returned. -/
theorem claim5_theorem :
    (∀ (gen : Nat → List Char) (response : List Char)
        (opts : ParseJsonFunctionCallsOptions),
        ∃ r, parseJsonFunctionCallsE gen response opts = .ok r) ∧
      (parseJsonFunctionCalls genDemo ("```tool_call\n\x7binvalid\x7d\n```".toList)
          DEFAULT_OPTIONS).toolCalls.length = 0 ∧
      (parseJsonFunctionCalls genDemo
          ("```tool_call\nnull\n```X```tool_call\n\x7b\"name\":\"b\"\x7d\n```".toList)
          DEFAULT_OPTIONS).toolCalls.map (fun c => c.toolName)
        = [Jv.jstr ("b".toList)] := by
  refine ⟨?_, by decide, rfl⟩
  intro gen response opts
  by_cases hm : (regexMatches opts response).isEmpty = true
  · exact ⟨⟨[], response⟩, by simp [parseJsonFunctionCallsE, hm]⟩
  · obtain ⟨s, hs⟩ := parseAllE_ok gen opts (regexMatches opts response) ⟨[], response, 0⟩
    exact ⟨⟨s.calls, jsTrim (collapseLF s.text)⟩, by simp [parseJsonFunctionCallsE, hm, hs]⟩

theorem getField_of_ne_null (call : Jv) (k : List Char) (h : call ≠ Jv.jnull) :
    getField call k = .ok (fieldOf call k) := by
  cases call with
  | jnull => exact absurd rfl h
  | jbool b => rfl
  | jnum r => rfl
  | jstr s => rfl
  | jarr xs => rfl
  | jobj fs => rfl

theorem processCandidate_skip (gen : Nat → List Char) (opts : ParseJsonFunctionCallsOptions)
    (k : Nat) (call : Jv) (hnull : call ≠ Jv.jnull)
    (hname : jsTruthyO (fieldOf call ("name".toList)) = false) :
    processCandidate gen opts k call = .ok (none, k) := by
  cases call with
  | jnull => exact absurd rfl hnull
  | jobj fs =>
    have h : jsTruthyO (lookupField fs ("name".toList)) = false := by
      simpa [fieldOf] using hname
    simp only [processCandidate, getField, Bind.bind, Except.bind, pure, Except.pure, h]
    simp
  | jbool b => rfl
  | jnum r => rfl
  | jstr s => rfl
  | jarr xs => rfl

/-- Claim C10: a candidate whose `name` is absent or falsy (empty string, 0,
false, null name value) contributes no tool call — the candidate loop treats it
exactly as if it were not there — while all other candidates of the same list
are processed unchanged (also with the same generated-id numbering). -/
theorem claim10_theorem (gen : Nat → List Char) (opts : ParseJsonFunctionCallsOptions)
    (st : PState) (pre post : List Jv) (c : Jv) (hnull : c ≠ Jv.jnull)
    (hname : jsTruthyO (fieldOf c ("name".toList)) = false) :
    processCandidatesE gen opts st (pre ++ c :: post)
      = processCandidatesE gen opts st (pre ++ post) := by
  induction pre generalizing st with
  | nil =>
    simp only [List.nil_append, processCandidatesE,
      processCandidate_skip gen opts st.k c hnull hname]
  | cons d rest ih =>
    simp only [List.cons_append, processCandidatesE]
    cases hp : processCandidate gen opts st.k d with
    | error e => rfl
    | ok val =>
      obtain ⟨op, k'⟩ := val
      cases op with
      | none => exact ih _
      | some p => exact ih _

/-- Witness for C10: a candidate with `"name": ""` between two named candidates
is dropped exactly as if absent. -/
theorem claim10_witness :
    (Jv.jobj [(("name".toList), Jv.jstr [])]) ≠ Jv.jnull ∧
      jsTruthyO (fieldOf (Jv.jobj [(("name".toList), Jv.jstr [])]) ("name".toList)) = false ∧
      processCandidatesE genDemo DEFAULT_OPTIONS ⟨[], [], 0⟩
          ([Jv.jobj [(("name".toList), Jv.jstr ("a".toList))]] ++
            (Jv.jobj [(("name".toList), Jv.jstr [])]) ::
              [Jv.jobj [(("name".toList), Jv.jstr ("b".toList))]])
        = processCandidatesE genDemo DEFAULT_OPTIONS ⟨[], [], 0⟩
            ([Jv.jobj [(("name".toList), Jv.jstr ("a".toList))]] ++
              [Jv.jobj [(("name".toList), Jv.jstr ("b".toList))]]) :=
  ⟨fun h => Jv.noConfusion h, rfl,
    claim10_theorem genDemo DEFAULT_OPTIONS ⟨[], [], 0⟩
      [Jv.jobj [(("name".toList), Jv.jstr ("a".toList))]]
      [Jv.jobj [(("name".toList), Jv.jstr ("b".toList))]]
      (Jv.jobj [(("name".toList), Jv.jstr [])])
      (fun h => Jv.noConfusion h) rfl⟩

/-- Claim C3 (amended): for a non-null candidate with truthy `name`, args are
selected by truthiness (`||`), not nullish coalescing: `arguments` when truthy,
else `parameters` when the alias is enabled and truthy, else the empty object;
a string selection is JSON-parsed and kept raw on failure; the id is
`candidate.id` when truthy, else freshly generated. -/
theorem claim3_theorem (gen : Nat → List Char) (opts : ParseJsonFunctionCallsOptions)
    (k : Nat) (call : Jv) (hnull : call ≠ Jv.jnull)
    (hname : jsTruthyO (fieldOf call ("name".toList)) = true) :
    processCandidate gen opts k call =
      .ok (some ⟨(if jsTruthyO (fieldOf call ("id".toList)) then
            (fieldOf call ("id".toList)).getD Jv.jnull
          else Jv.jstr (gen k)),
          (fieldOf call ("name".toList)).getD Jv.jnull,
          parseIfString (argsSelSpec opts call)⟩,
        if jsTruthyO (fieldOf call ("id".toList)) then k else k + 1) := by
  cases call with
  | jnull => exact absurd rfl hnull
  | jobj fs =>
    have h : jsTruthyO (lookupField fs ("name".toList)) = true := by
      simpa [fieldOf] using hname
    by_cases hid : jsTruthyO (lookupField fs ("id".toList)) = true
    · simp only [processCandidate, getField, fieldOf, argsSelSpec, parseIfString,
        Bind.bind, Except.bind, pure, Except.pure, h, hid]
      simp
    · simp only [processCandidate, getField, fieldOf, argsSelSpec, parseIfString,
        Bind.bind, Except.bind, pure, Except.pure, h, if_neg hid]
      simp [hid]
  | jbool b => simp [fieldOf, jsTruthyO] at hname
  | jnum r => simp [fieldOf, jsTruthyO] at hname
  | jstr s => simp [fieldOf, jsTruthyO] at hname
  | jarr xs => simp [fieldOf, jsTruthyO] at hname

/-- Witness for C3 (amended) at a candidate carrying a falsy `arguments` (the
empty string) and a truthy `parameters` object: the object is selected. -/
theorem claim3_witness :
    (Jv.jobj [(("name".toList), Jv.jstr ("t".toList)),
        (("arguments".toList), Jv.jstr []),
        (("parameters".toList), Jv.jobj [(("x".toList), Jv.jstr ("1".toList))])]) ≠ Jv.jnull ∧
      jsTruthyO (fieldOf (Jv.jobj [(("name".toList), Jv.jstr ("t".toList)),
        (("arguments".toList), Jv.jstr []),
        (("parameters".toList), Jv.jobj [(("x".toList), Jv.jstr ("1".toList))])])
          ("name".toList)) = true ∧
      processCandidate genDemo DEFAULT_OPTIONS 0
          (Jv.jobj [(("name".toList), Jv.jstr ("t".toList)),
            (("arguments".toList), Jv.jstr []),
            (("parameters".toList), Jv.jobj [(("x".toList), Jv.jstr ("1".toList))])])
        = .ok (some ⟨Jv.jstr (genDemo 0), Jv.jstr ("t".toList),
            Jv.jobj [(("x".toList), Jv.jstr ("1".toList))]⟩, 1) := by
  refine ⟨fun h => Jv.noConfusion h, rfl, ?_⟩
  have h := claim3_theorem genDemo DEFAULT_OPTIONS 0
    (Jv.jobj [(("name".toList), Jv.jstr ("t".toList)),
      (("arguments".toList), Jv.jstr []),
      (("parameters".toList), Jv.jobj [(("x".toList), Jv.jstr ("1".toList))])])
    (fun h => Jv.noConfusion h) rfl
  exact h

theorem overlapFind_le (text cand : List Char) (m : Nat) : overlapFind text cand m ≤ m := by
  induction m with
  | zero => simp [overlapFind]
  | succ k ih =>
    simp only [overlapFind]
    split
    · exact le_refl _
    · exact le_trans ih (by omega)

theorem overlapFind_spec (text cand : List Char) (m : Nat) :
    overlapFind text cand m = 0 ∨
      (1 ≤ overlapFind text cand m ∧
        startsWithL cand (lastN (overlapFind text cand m) text) = true) := by
  induction m with
  | zero => exact Or.inl rfl
  | succ k ih =>
    simp only [overlapFind]
    split
    · rename_i hs
      exact Or.inr ⟨by omega, hs⟩
    · exact ih

theorem overlapFind_ge (text cand : List Char) (m k : Nat) (h1 : 1 ≤ k) (h2 : k ≤ m)
    (h3 : startsWithL cand (lastN k text) = true) : k ≤ overlapFind text cand m := by
  induction m with
  | zero => omega
  | succ j ih =>
    simp only [overlapFind]
    split
    · omega
    · rename_i hns
      have hkj : k ≤ j := by
        rcases Nat.lt_or_ge k (j + 1) with hlt | hge
        · omega
        · have : k = j + 1 := by omega
          subst this
          exact absurd h3 (by simpa using hns)
      exact ih hkj

theorem foldl_max_init (g : List Char → Nat) (l : List (List Char)) (a : Nat) :
    a ≤ l.foldl (fun m c => max m (g c)) a := by
  induction l generalizing a with
  | nil => simp
  | cons c t ih => exact le_trans (Nat.le_max_left a (g c)) (ih (max a (g c)))

theorem foldl_max_mem (g : List Char → Nat) (l : List (List Char)) (a : Nat)
    (c : List Char) (hc : c ∈ l) : g c ≤ l.foldl (fun m x => max m (g x)) a := by
  induction l generalizing a with
  | nil => cases hc
  | cons d t ih =>
    rcases List.mem_cons.mp hc with rfl | hm
    · exact le_trans (Nat.le_max_right a (g c)) (foldl_max_init g t _)
    · exact ih _ hm

theorem foldl_max_eq (g : List Char → Nat) (l : List (List Char)) (a : Nat) :
    l.foldl (fun m x => max m (g x)) a = a ∨
      ∃ c, c ∈ l ∧ l.foldl (fun m x => max m (g x)) a = g c := by
  induction l generalizing a with
  | nil => exact Or.inl rfl
  | cons d t ih =>
    rcases ih (max a (g d)) with h | ⟨c, hc, he⟩
    · simp only [List.foldl_cons] at *
      rcases Nat.le_total a (g d) with hle | hle
      · right
        exact ⟨d, List.mem_cons_self d t, by rw [h]; omega⟩
      · left
        rw [h]
        omega
    · right
      exact ⟨c, List.mem_cons_of_mem d hc, he⟩

theorem foldl_max_le (g : List Char → Nat) (l : List (List Char)) (a b : Nat)
    (ha : a ≤ b) (h : ∀ c, c ∈ l → g c ≤ b) :
    l.foldl (fun m x => max m (g x)) a ≤ b := by
  induction l generalizing a with
  | nil => simpa using ha
  | cons d t ih =>
    refine ih (max a (g d)) ?_ (fun c hc => h c (List.mem_cons_of_mem d hc))
    have := h d (List.mem_cons_self d t)
    omega

theorem overlapFor_valid (text cand : List Char) :
    overlapFor text cand = 0 ∨ validOv text cand (overlapFor text cand) := by
  have he : overlapFor text cand
      = overlapFind text cand (min text.length (cand.length - 1)) := rfl
  rcases overlapFind_spec text cand (min text.length (cand.length - 1)) with h | ⟨h1, h2⟩
  · exact Or.inl (by rw [he, h])
  · right
    have hle := overlapFind_le text cand (min text.length (cand.length - 1))
    rw [he]
    exact ⟨h1, by omega, by omega, h2⟩

theorem overlapFor_ge_valid (text cand : List Char) (k : Nat) (h : validOv text cand k) :
    k ≤ overlapFor text cand := by
  obtain ⟨h1, h2, h3, h4⟩ := h
  exact overlapFind_ge text cand _ k h1 (by omega) h4

/-- Counterexample to C7 as stated: with the degenerate candidate set holding
only the empty string, the result 0 is not strictly less than the longest
candidate's length (also 0). -/
theorem claim7_counterexample :
    computeOverlapLength ("a".toList) [([] : List Char)] = 0 ∧
      maxLenList [([] : List Char)] = 0 ∧
      ¬ (computeOverlapLength ("a".toList) [([] : List Char)]
          < maxLenList [([] : List Char)]) := by
  refine ⟨by decide, by decide, by decide⟩

/-- Claim C7 (amended): `computeOverlapLength` returns exactly the maximum
length `k` with `1 ≤ k ≤ min(len(text), len(cand)-1)` such that some candidate
starts with the last `k` characters of the text (0 when none exists); the
result never exceeds `len(text)`, and is strictly below the longest candidate's
length whenever some candidate is non-empty. -/
theorem claim7_theorem (text : List Char) (cands : List (List Char)) :
    (∀ k c, c ∈ cands → validOv text c k → k ≤ computeOverlapLength text cands) ∧
      (computeOverlapLength text cands = 0 ∨
        ∃ c, c ∈ cands ∧ validOv text c (computeOverlapLength text cands)) ∧
      computeOverlapLength text cands ≤ text.length ∧
      ((∃ c, c ∈ cands ∧ c ≠ []) →
        computeOverlapLength text cands < maxLenList cands) := by
  refine ⟨?_, ?_, ?_, ?_⟩
  · intro k c hc hv
    exact le_trans (overlapFor_ge_valid text c k hv)
      (foldl_max_mem (overlapFor text) cands 0 c hc)
  · rcases foldl_max_eq (overlapFor text) cands 0 with h | ⟨c, hc, he⟩
    · exact Or.inl h
    · rcases overlapFor_valid text c with h0 | hv
      · exact Or.inl (by rw [computeOverlapLength, he, h0])
      · right
        exact ⟨c, hc, by rw [computeOverlapLength, he]; exact hv⟩
  · refine foldl_max_le (overlapFor text) cands 0 text.length (by omega) ?_
    intro c _
    rcases overlapFor_valid text c with h0 | hv
    · omega
    · exact hv.2.1
  · rintro ⟨c0, hc0, hne⟩
    have hmax1 : 1 ≤ maxLenList cands := by
      have := foldl_max_mem List.length cands 0 c0 hc0
      have hlen : 1 ≤ c0.length := by
        cases c0 with
        | nil => exact absurd rfl hne
        | cons x xs => simp
      simp only [maxLenList]
      omega
    rcases foldl_max_eq (overlapFor text) cands 0 with h | ⟨c, hc, he⟩
    · rw [computeOverlapLength, h]
      omega
    · rw [computeOverlapLength, he]
      rcases overlapFor_valid text c with h0 | hv
      · omega
      · have hcl : c.length ≤ maxLenList cands := foldl_max_mem List.length cands 0 c hc
        have := hv.2.2.1
        omega

/-- Witness for C7 (amended) at a concrete text and the extended marker set:
overlap 5 is attained, bounded by the text length, and strictly below the
longest marker length. -/
theorem claim7_witness :
    computeOverlapLength ("ab```to".toList) (fenceStartsOf defaultDetectorConfig)
        ≤ ("ab```to".toList).length ∧
      computeOverlapLength ("ab```to".toList) (fenceStartsOf defaultDetectorConfig)
        < maxLenList (fenceStartsOf defaultDetectorConfig) := by
  refine ⟨(claim7_theorem ("ab```to".toList) (fenceStartsOf defaultDetectorConfig)).2.2.1, ?_⟩
  exact (claim7_theorem ("ab```to".toList) (fenceStartsOf defaultDetectorConfig)).2.2.2
    ⟨("```tool_call".toList), by decide, by decide⟩

theorem dropWhile_eq_drop (p : Char → Bool) (l : List Char) :
    l.dropWhile p = l.drop (l.takeWhile p).length := by
  induction l with
  | nil => rfl
  | cons c t ih =>
    simp only [List.dropWhile_cons, List.takeWhile_cons]
    by_cases hc : p c = true
    · simp [hc, ih]
    · simp [hc]

theorem getCharAt_decomp (cs : List Char) (n : Nat) (c : Char) (h : getCharAt cs n = some c) :
    cs.drop n = c :: cs.drop (n + 1) := by
  unfold getCharAt at h
  cases hd : cs.drop n with
  | nil => rw [hd] at h; simp at h
  | cons x t =>
    rw [hd] at h
    simp only [List.head?_cons, Option.some.injEq] at h
    subst h
    have ht : cs.drop (n + 1) = (cs.drop n).drop 1 := by
      rw [List.drop_drop]
    rw [ht, hd]
    rfl

theorem computeOverlap_le_text (text : List Char) (cands : List (List Char)) :
    computeOverlapLength text cands ≤ text.length := by
  refine foldl_max_le (overlapFor text) cands 0 text.length (by omega) ?_
  intro c _
  have h := overlapFind_le text c (min text.length (c.length - 1))
  have he : overlapFor text c = overlapFind text c (min text.length (c.length - 1)) := rfl
  omega

theorem computeOverlap_le_maxpred (text : List Char) (cands : List (List Char)) :
    computeOverlapLength text cands ≤ maxLenList cands - 1 := by
  refine foldl_max_le (overlapFor text) cands 0 (maxLenList cands - 1) (by omega) ?_
  intro c hc
  have h := overlapFind_le text c (min text.length (c.length - 1))
  have he : overlapFor text c = overlapFind text c (min text.length (c.length - 1)) := rfl
  have h2 : c.length ≤ maxLenList cands := foldl_max_mem List.length cands 0 c hc
  omega

theorem maxLenList_singleton (x : List Char) : maxLenList [x] = x.length := by
  simp [maxLenList]

theorem pyMatchAt_spec (cs : List Char) (i : Nat) (m : List Char) (h : pyMatchAt cs i = some m) :
    startsWithL (cs.drop i) m = true ∧ 3 ≤ m.length := by
  unfold pyMatchAt at h
  cases hg : getCharAt cs i with
  | none => rw [hg] at h; exact absurd h (by simp)
  | some c =>
    rw [hg] at h
    dsimp only at h
    by_cases hc : (c == '[') = true
    · rw [if_pos hc] at h
      set run := (cs.drop (i + 1)).takeWhile isWordCh with hrun
      by_cases h2 : (decide (0 < run.length) && (getCharAt cs (i + 1 + run.length) == some '(')) = true
      · rw [if_pos h2] at h
        injection h with hm
        subst hm
        simp only [Bool.and_eq_true, decide_eq_true_eq, beq_iff_eq] at h2
        obtain ⟨hlen, hpar⟩ := h2
        have hdec := getCharAt_decomp cs i c hg
        have hc' : c = '[' := by simpa using hc
        subst hc'
        constructor
        · rw [startsWithL_iff]
          have hrp : cs.drop (i + 1) = run ++ (cs.drop (i + 1)).dropWhile isWordCh := by
            rw [hrun, List.takeWhile_append_dropWhile]
          have hdw : (cs.drop (i + 1)).dropWhile isWordCh = cs.drop (i + 1 + run.length) := by
            rw [dropWhile_eq_drop, ← hrun, List.drop_drop]
          have hpdec := getCharAt_decomp cs (i + 1 + run.length) '(' hpar
          refine ⟨cs.drop (i + 1 + run.length + 1), ?_⟩
          rw [hdec, hrp, hdw, hpdec]
          simp
        · simp only [List.length_cons, List.length_append, List.length_cons]
          omega
      · rw [if_neg h2] at h
        exact absurd h (by simp)
    · rw [if_neg hc] at h
      exact absurd h (by simp)

theorem pyFirstFrom_spec (fuel : Nat) (cs : List Char) (i j : Nat) (m : List Char)
    (h : pyFirstFrom fuel cs i = some (j, m)) : pyMatchAt cs j = some m := by
  induction fuel generalizing i with
  | zero => exact absurd h (by simp [pyFirstFrom])
  | succ f ih =>
    unfold pyFirstFrom at h
    split at h
    · exact absurd h (by simp)
    · cases hp : pyMatchAt cs i with
      | some m' =>
        rw [hp] at h
        injection h with h'
        injection h' with h1 h2
        subst h1
        subst h2
        exact hp
      | none =>
        rw [hp] at h
        exact ih (i + 1) h

theorem pyFirstMatch_spec (cs : List Char) (j : Nat) (m : List Char)
    (h : pyFirstMatch cs = some (j, m)) :
    startsWithL (cs.drop j) m = true ∧ 3 ≤ m.length :=
  pyMatchAt_spec cs j m (pyFirstFrom_spec (cs.length + 1) cs 0 j m h)

theorem findLiteralStart_spec (cs : List Char) (pats : List FencePattern)
    (b : FenceStartMatch) (h : findLiteralStart cs pats = some b) :
    b.matchedPrefix = b.pattern.start ∧
      firstIdxOf cs b.pattern.start = some b.index ∧ b.pattern ∈ pats := by
  have main : ∀ (l : List FencePattern) (S : List FencePattern) (acc : Option FenceStartMatch),
      (∀ p, p ∈ l → p ∈ S) →
      (∀ x, acc = some x → x.matchedPrefix = x.pattern.start ∧
        firstIdxOf cs x.pattern.start = some x.index ∧ x.pattern ∈ S) →
      ∀ y, l.foldl
          (fun best p =>
            match firstIdxOf cs p.start with
            | none => best
            | some idx =>
              match best with
              | none => some ⟨idx, p.start, p⟩
              | some bb => if idx < bb.index then some ⟨idx, p.start, p⟩ else best)
          acc = some y →
        y.matchedPrefix = y.pattern.start ∧
          firstIdxOf cs y.pattern.start = some y.index ∧ y.pattern ∈ S := by
    intro l
    induction l with
    | nil =>
      intro S acc _ hacc y hy
      exact hacc y hy
    | cons p t ih =>
      intro S acc hsub hacc y hy
      simp only [List.foldl_cons] at hy
      refine ih S _ (fun q hq => hsub q (List.mem_cons_of_mem p hq)) ?_ y hy
      intro x hx
      cases hidx : firstIdxOf cs p.start with
      | none =>
        rw [hidx] at hx
        exact hacc x hx
      | some idx =>
        rw [hidx] at hx
        dsimp only at hx
        cases hacc2 : acc with
        | none =>
          rw [hacc2] at hx
          dsimp only at hx
          injection hx with hx'
          subst hx'
          exact ⟨rfl, hidx, hsub p (List.mem_cons_self p t)⟩
        | some bb =>
          rw [hacc2] at hx
          dsimp only at hx
          by_cases hlt : idx < bb.index
          · rw [if_pos hlt] at hx
            injection hx with hx'
            subst hx'
            exact ⟨rfl, hidx, hsub p (List.mem_cons_self p t)⟩
          · rw [if_neg hlt] at hx
            exact hacc x (hacc2.symm ▸ hx)
  exact main pats pats none (fun _ hp => hp) (fun x hx => by cases hx) b h

theorem findFenceStart_spec (cfg : DetectorConfig) (cs : List Char) (b : FenceStartMatch)
    (h : findFenceStart cfg cs = some b) :
    startsWithL (cs.drop b.index) b.matchedPrefix = true ∧
      ((b.pattern ∈ cfg.fencePatterns ∧ b.matchedPrefix = b.pattern.start) ∨
        3 ≤ b.matchedPrefix.length) := by
  unfold findFenceStart at h
  have litcase : ∀ (hl : findLiteralStart cs cfg.fencePatterns = some b),
      startsWithL (cs.drop b.index) b.matchedPrefix = true ∧
        ((b.pattern ∈ cfg.fencePatterns ∧ b.matchedPrefix = b.pattern.start) ∨
          3 ≤ b.matchedPrefix.length) := by
    intro hl
    obtain ⟨h1, h2, h3⟩ := findLiteralStart_spec cs cfg.fencePatterns b hl
    have hs := (firstIdxOf_some cs b.pattern.start b.index h2).2
    rw [h1]
    exact ⟨hs, Or.inl ⟨h3, rfl⟩⟩
  by_cases hpy : cfg.enablePythonStyle = true
  · rw [if_pos hpy] at h
    cases hpm : pyFirstMatch cs with
    | none =>
      rw [hpm] at h
      exact litcase h
    | some im =>
      rw [hpm] at h
      dsimp only at h
      cases hlit : findLiteralStart cs cfg.fencePatterns with
      | none =>
        rw [hlit] at h
        dsimp only at h
        injection h with h'
        subst h'
        obtain ⟨hs, hlen⟩ := pyFirstMatch_spec cs im.1 im.2 (by rw [hpm])
        exact ⟨hs, Or.inr hlen⟩
      | some bb =>
        rw [hlit] at h
        dsimp only at h
        by_cases hlt : im.1 < bb.index
        · rw [if_pos hlt] at h
          injection h with h'
          subst h'
          obtain ⟨hs, hlen⟩ := pyFirstMatch_spec cs im.1 im.2 (by rw [hpm])
          exact ⟨hs, Or.inr hlen⟩
        · rw [if_neg hlt] at h
          exact litcase (hlit.trans h)
  · rw [if_neg hpy] at h
    exact litcase h


theorem detectG_nf_none (cfg : DetectorConfig) (buf fsb em csnl : List Char)
    (cur : Option FencePattern) (hf : findFenceStart cfg buf = none) :
    detectStreamingFenceG cfg ⟨⟨buf, false, fsb, cur⟩, em, csnl⟩ =
      (⟨false, buf.take (buf.length - computeOverlapLength buf (fenceStartsOf cfg)),
          none, []⟩,
        ⟨⟨buf.drop (buf.length - computeOverlapLength buf (fenceStartsOf cfg)),
            false, fsb, cur⟩,
          em ++ buf.take (buf.length - computeOverlapLength buf (fenceStartsOf cfg)),
          csnl⟩) := by
  unfold detectStreamingFenceG
  dsimp only
  rw [hf]
  rfl

theorem detectG_nf_some (cfg : DetectorConfig) (buf fsb em csnl : List Char)
    (cur : Option FencePattern) (m : FenceStartMatch)
    (hf : findFenceStart cfg buf = some m) :
    detectStreamingFenceG cfg ⟨⟨buf, false, fsb, cur⟩, em, csnl⟩ =
      (⟨true, buf.take m.index, none, []⟩,
        ⟨⟨(if (startsWithL m.pattern.start ("```".toList) &&
                startsWithL (buf.drop (m.index + m.matchedPrefix.length)) ("\n".toList)) = true
              then (buf.drop (m.index + m.matchedPrefix.length)).drop 1
              else buf.drop (m.index + m.matchedPrefix.length)),
            true, [], some m.pattern⟩,
          em ++ buf.take m.index,
          m.matchedPrefix ++
            (if (startsWithL m.pattern.start ("```".toList) &&
                startsWithL (buf.drop (m.index + m.matchedPrefix.length)) ("\n".toList)) = true
              then [('\n' : Char)] else [])⟩) := by
  unfold detectStreamingFenceG
  dsimp only
  rw [hf]
  rfl

theorem detectG_if_none_pos (cfg : DetectorConfig) (buf fsb em csnl : List Char)
    (cur : Option FencePattern)
    (hf : firstIdxOf buf ((cur.map FencePattern.endMarker).getD ("```".toList)) = none)
    (hsz : 0 < buf.length -
      computeOverlapLength buf [(cur.map FencePattern.endMarker).getD ("```".toList)]) :
    detectStreamingFenceG cfg ⟨⟨buf, true, fsb, cur⟩, em, csnl⟩ =
      (⟨true, buf.take (buf.length -
          computeOverlapLength buf [(cur.map FencePattern.endMarker).getD ("```".toList)]),
          none, []⟩,
        ⟨⟨buf.drop (buf.length -
            computeOverlapLength buf [(cur.map FencePattern.endMarker).getD ("```".toList)]),
            true,
            fsb ++ buf.take (buf.length -
              computeOverlapLength buf [(cur.map FencePattern.endMarker).getD ("```".toList)]),
            cur⟩,
          em, csnl⟩) := by
  unfold detectStreamingFenceG
  dsimp only
  rw [hf, if_pos hsz]
  rfl

theorem detectG_if_none_zero (cfg : DetectorConfig) (buf fsb em csnl : List Char)
    (cur : Option FencePattern)
    (hf : firstIdxOf buf ((cur.map FencePattern.endMarker).getD ("```".toList)) = none)
    (hsz : ¬ (0 < buf.length -
      computeOverlapLength buf [(cur.map FencePattern.endMarker).getD ("```".toList)])) :
    detectStreamingFenceG cfg ⟨⟨buf, true, fsb, cur⟩, em, csnl⟩ =
      (⟨true, [], none, []⟩, ⟨⟨buf, true, fsb, cur⟩, em, csnl⟩) := by
  unfold detectStreamingFenceG
  dsimp only
  rw [hf, if_neg hsz]
  rfl

theorem detectG_if_some (cfg : DetectorConfig) (buf fsb em csnl : List Char)
    (cur : Option FencePattern) (cidx : Nat)
    (hf : firstIdxOf buf ((cur.map FencePattern.endMarker).getD ("```".toList)) = some cidx) :
    detectStreamingFenceG cfg ⟨⟨buf, true, fsb, cur⟩, em, csnl⟩ =
      (⟨false, buf.take cidx,
          some ((cur.map FencePattern.reconstructStart).getD ("```tool_call\n".toList) ++
            (fsb ++ buf.take cidx) ++
            (cur.map FencePattern.endMarker).getD ("```".toList)),
          buf.drop (cidx +
            ((cur.map FencePattern.endMarker).getD ("```".toList)).length)⟩,
        ⟨⟨buf.drop (cidx +
              ((cur.map FencePattern.endMarker).getD ("```".toList)).length),
            false, [], none⟩,
          em ++ csnl ++ (fsb ++ buf.take cidx) ++
            (cur.map FencePattern.endMarker).getD ("```".toList),
          []⟩) := by
  unfold detectStreamingFenceG
  dsimp only
  rw [hf]
  rfl

/-- Claim C8: every `detectStreamingFence` call either strictly shrinks the
buffered text or leaves the buffer unchanged with its length bounded by a
constant of the pattern table — the longest start marker minus one outside a
fence, the active end marker's length minus one inside — and the buffer never
grows.  (The markers of the instance's pattern table are assumed non-empty, as
they are in `DEFAULT_FENCE_PATTERNS` and `EXTENDED_FENCE_PATTERNS`.) -/
theorem claim8_theorem (cfg : DetectorConfig) (st : DetectorState)
    (hpat : ∀ p, p ∈ cfg.fencePatterns → p.start ≠ [] ∧ p.endMarker ≠ [])
    (hcur : ∀ p, st.currentFencePattern = some p → p.endMarker ≠ []) :
    ((detectStreamingFence cfg st).2.buffer.length < st.buffer.length ∨
      ((detectStreamingFence cfg st).2.buffer = st.buffer ∧
        (detectStreamingFence cfg st).2.buffer.length ≤
          (if st.inFence then
              ((st.currentFencePattern.map FencePattern.endMarker).getD
                ("```".toList)).length - 1
            else maxLenList (fenceStartsOf cfg) - 1))) ∧
      (detectStreamingFence cfg st).2.buffer.length ≤ st.buffer.length := by
  obtain ⟨buf, inF, fsb, cur⟩ := st
  have he : (detectStreamingFence cfg ⟨buf, inF, fsb, cur⟩).2
      = (detectStreamingFenceG cfg ⟨⟨buf, inF, fsb, cur⟩, [], []⟩).2.d := rfl
  rw [he]
  cases inF with
  | false =>
    have hot := computeOverlap_le_text buf (fenceStartsOf cfg)
    have hom := computeOverlap_le_maxpred buf (fenceStartsOf cfg)
    cases hf : findFenceStart cfg buf with
    | none =>
      rw [detectG_nf_none cfg buf fsb [] [] cur hf]
      dsimp only
      simp only [List.length_drop, if_neg (by simp : ¬ ((false : Bool) = true))]
      by_cases hsz : buf.length - computeOverlapLength buf (fenceStartsOf cfg) = 0
      · refine ⟨Or.inr ⟨?_, ?_⟩, ?_⟩
        · rw [hsz]
          rfl
        · omega
        · omega
      · exact ⟨Or.inl (by omega), by omega⟩
    | some m =>
      obtain ⟨hsw, hkind⟩ := findFenceStart_spec cfg buf m hf
      have hmp1 : 1 ≤ m.matchedPrefix.length := by
        rcases hkind with ⟨hmem, heq⟩ | h3
        · rw [heq]
          exact List.length_pos.mpr (hpat m.pattern hmem).1
        · omega
      have hlen1 := startsWithL_length _ _ hsw
      have hlen2 : (buf.drop m.index).length = buf.length - m.index := List.length_drop _ _
      have hix : m.index + m.matchedPrefix.length ≤ buf.length := by omega
      rw [detectG_nf_some cfg buf fsb [] [] cur m hf]
      dsimp only
      constructor
      · left
        split <;> simp only [List.length_drop] <;> omega
      · split <;> simp only [List.length_drop] <;> omega
  | true =>
    have hend1 : 1 ≤ ((cur.map FencePattern.endMarker).getD ("```".toList)).length := by
      cases hc : cur with
      | none => decide
      | some p => exact List.length_pos.mpr (hcur p hc)
    have hot := computeOverlap_le_text buf
      [(cur.map FencePattern.endMarker).getD ("```".toList)]
    have hom := computeOverlap_le_maxpred buf
      [(cur.map FencePattern.endMarker).getD ("```".toList)]
    rw [maxLenList_singleton] at hom
    cases hf : firstIdxOf buf ((cur.map FencePattern.endMarker).getD ("```".toList)) with
    | none =>
      by_cases hsz : 0 < buf.length -
          computeOverlapLength buf [(cur.map FencePattern.endMarker).getD ("```".toList)]
      · rw [detectG_if_none_pos cfg buf fsb [] [] cur hf hsz]
        dsimp only
        refine ⟨Or.inl ?_, ?_⟩ <;> simp only [List.length_drop] <;> omega
      · rw [detectG_if_none_zero cfg buf fsb [] [] cur hf hsz]
        dsimp only
        refine ⟨Or.inr ⟨rfl, ?_⟩, le_refl _⟩
        rw [if_pos rfl]
        omega
    | some cidx =>
      have hsw := (firstIdxOf_some _ _ _ hf).2
      have hlen1 := startsWithL_length _ _ hsw
      have hlen2 : (buf.drop cidx).length = buf.length - cidx := List.length_drop _ _
      rw [detectG_if_some cfg buf fsb [] [] cur cidx hf]
      dsimp only
      refine ⟨Or.inl ?_, ?_⟩ <;> simp only [List.length_drop] <;> omega

/-- Witness for C8 at the extended pattern table, python style on, and a
concrete mid-fence state still waiting for its end marker. -/
theorem claim8_witness :
    (detectStreamingFence defaultDetectorConfig
        ⟨("ab`".toList), true, ("x".toList),
          some ⟨"```tool_call".toList, "```".toList, "```tool_call\n".toList, false⟩⟩).2.buffer.length
      ≤ (("ab`".toList) : List Char).length :=
  (claim8_theorem defaultDetectorConfig
    ⟨("ab`".toList), true, ("x".toList),
      some ⟨"```tool_call".toList, "```".toList, "```tool_call\n".toList, false⟩⟩
    (by decide)
    (by
      intro p hp
      injection hp with h
      rw [← h]
      decide)).2

theorem inputOfOps_cons (op : DetectorOp) (rest : List DetectorOp) :
    inputOfOps (op :: rest) = inputOfOp op ++ inputOfOps rest := by
  cases op with
  | add c => rfl
  | det => rfl

theorem accountOf_applyOpG (cfg : DetectorConfig) (g : GhostDetectorState) (op : DetectorOp) :
    accountOf (applyOpG cfg g op) = accountOf g ++ inputOfOp op := by
  cases op with
  | add c =>
    simp [applyOpG, accountOf, pendingRegion, inputOfOp, List.append_assoc]
  | det =>
    obtain ⟨⟨buf, inF, fsb, cur⟩, em, csnl⟩ := g
    show accountOf (detectStreamingFenceG cfg ⟨⟨buf, inF, fsb, cur⟩, em, csnl⟩).2
      = accountOf ⟨⟨buf, inF, fsb, cur⟩, em, csnl⟩ ++ []
    cases inF with
    | false =>
      cases hf : findFenceStart cfg buf with
      | none =>
        rw [detectG_nf_none cfg buf fsb em csnl cur hf]
        dsimp only [accountOf, pendingRegion]
        simp [List.append_assoc, List.take_append_drop]
      | some m =>
        obtain ⟨hsw, _⟩ := findFenceStart_spec cfg buf m hf
        have hdec := startsWithL_decomp _ _ hsw
        have hrest : (buf.drop m.index).drop m.matchedPrefix.length
            = buf.drop (m.index + m.matchedPrefix.length) := by
          rw [List.drop_drop]
        have hbuf : buf = buf.take m.index ++
            (m.matchedPrefix ++ buf.drop (m.index + m.matchedPrefix.length)) := by
          conv_lhs => rw [← List.take_append_drop m.index buf]
          rw [hdec, hrest]
        rw [detectG_nf_some cfg buf fsb em csnl cur m hf]
        dsimp only [accountOf, pendingRegion]
        by_cases hstrip : (startsWithL m.pattern.start ("```".toList) &&
            startsWithL (buf.drop (m.index + m.matchedPrefix.length)) ("\n".toList)) = true
        · rw [if_pos hstrip, if_pos hstrip]
          have hnl : buf.drop (m.index + m.matchedPrefix.length)
              = ('\n' : Char) :: (buf.drop (m.index + m.matchedPrefix.length)).drop 1 := by
            have h2 := (Bool.and_eq_true _ _).mp hstrip
            have h3 := startsWithL_decomp _ _ h2.2
            simpa using h3
          conv_rhs => rw [hbuf, hnl]
          simp [List.append_assoc]
        · rw [if_neg hstrip, if_neg hstrip]
          conv_rhs => rw [hbuf]
          simp [List.append_assoc]
    | true =>
      cases hf : firstIdxOf buf ((cur.map FencePattern.endMarker).getD ("```".toList)) with
      | none =>
        by_cases hsz : 0 < buf.length -
            computeOverlapLength buf [(cur.map FencePattern.endMarker).getD ("```".toList)]
        · rw [detectG_if_none_pos cfg buf fsb em csnl cur hf hsz]
          dsimp only [accountOf, pendingRegion]
          simp [List.append_assoc, List.take_append_drop]
        · rw [detectG_if_none_zero cfg buf fsb em csnl cur hf hsz]
          dsimp only [accountOf, pendingRegion]
          simp
      | some cidx =>
        have hdec := firstIdxOf_decomp buf _ cidx hf
        rw [detectG_if_some cfg buf fsb em csnl cur cidx hf]
        dsimp only [accountOf, pendingRegion]
        conv_rhs => rw [hdec]
        simp [List.append_assoc]

theorem runTrace_account (cfg : DetectorConfig) (ops : List DetectorOp) :
    accountOf (runTrace cfg ops) = inputOfOps ops := by
  have h : ∀ g, accountOf (ops.foldl (applyOpG cfg) g) = accountOf g ++ inputOfOps ops := by
    induction ops with
    | nil => intro g; simp [inputOfOps]
    | cons op rest ih =>
      intro g
      rw [List.foldl_cons, ih (applyOpG cfg g op), accountOf_applyOpG, inputOfOps_cons,
        List.append_assoc]
  have h0 := h initialGhostState
  rw [runTrace, h0]
  simp [accountOf, pendingRegion, initialGhostState, initialDetectorState]

/-- Claim C1 (amended): the detector drops no byte — over any trace of
`addChunk` and `detectStreamingFence` operations, the emitted interleaving
(out-of-fence safe content, and for each completed fence its consumed region:
matched start marker, the newline consumed after a markdown start when present,
accumulated body and end marker), followed by the pending fence region and the
retained buffer, equals exactly the text fed so far; and each reported
`completeFence` is the active pattern's reconstruction prefix followed by the
very body-and-end-marker text that the consumed-region accounting records, so
it reproduces the source text exactly if and only if the consumed start (plus
newline) equals the reconstruction prefix. -/
theorem claim1_theorem :
    (∀ (cfg : DetectorConfig) (ops : List DetectorOp),
        accountOf (runTrace cfg ops) = inputOfOps ops) ∧
      (∀ (cfg : DetectorConfig) (g : GhostDetectorState) (f : List Char),
        (detectStreamingFenceG cfg g).1.completeFence = some f →
        ∃ body,
          f = ((g.d.currentFencePattern.map FencePattern.reconstructStart).getD
              ("```tool_call\n".toList)) ++ body ∧
          (detectStreamingFenceG cfg g).2.emitted
            = g.emitted ++ g.consumedStartNl ++ body) := by
  refine ⟨runTrace_account, ?_⟩
  intro cfg g f hf
  obtain ⟨⟨buf, inF, fsb, cur⟩, em, csnl⟩ := g
  cases inF with
  | false =>
    cases hff : findFenceStart cfg buf with
    | none =>
      rw [detectG_nf_none cfg buf fsb em csnl cur hff] at hf
      exact absurd hf (by simp)
    | some m =>
      rw [detectG_nf_some cfg buf fsb em csnl cur m hff] at hf
      exact absurd hf (by simp)
  | true =>
    cases hff : firstIdxOf buf ((cur.map FencePattern.endMarker).getD ("```".toList)) with
    | none =>
      by_cases hsz : 0 < buf.length -
          computeOverlapLength buf [(cur.map FencePattern.endMarker).getD ("```".toList)]
      · rw [detectG_if_none_pos cfg buf fsb em csnl cur hff hsz] at hf
        exact absurd hf (by simp)
      · rw [detectG_if_none_zero cfg buf fsb em csnl cur hff hsz] at hf
        exact absurd hf (by simp)
    | some cidx =>
      rw [detectG_if_some cfg buf fsb em csnl cur cidx hff] at hf
      simp only [Option.some.injEq] at hf
      refine ⟨(fsb ++ buf.take cidx) ++ (cur.map FencePattern.endMarker).getD ("```".toList),
        ?_, ?_⟩
      · rw [← hf]
        simp [List.append_assoc]
      · rw [detectG_if_some cfg buf fsb em csnl cur cidx hff]
        simp [List.append_assoc]

/-- Witness for C1's completed-fence characterization at a concrete in-fence
state whose buffer contains the end marker. -/
theorem claim1_witness :
    ∃ body,
      ("```tool_call\n\x7b\x7d```".toList)
          = (((some (⟨"```tool_call".toList, "```".toList, "```tool_call\n".toList,
              false⟩ : FencePattern)).map FencePattern.reconstructStart).getD
            ("```tool_call\n".toList)) ++ body ∧
        (detectStreamingFenceG defaultDetectorConfig
            ⟨⟨"\x7d```after".toList, true, "\x7b".toList,
              some ⟨"```tool_call".toList, "```".toList, "```tool_call\n".toList, false⟩⟩,
              "pre".toList, "```tool_call\n".toList⟩).2.emitted
          = ("pre".toList) ++ ("```tool_call\n".toList) ++ body := by
  have h := claim1_theorem.2 defaultDetectorConfig
    ⟨⟨"\x7d```after".toList, true, "\x7b".toList,
      some ⟨"```tool_call".toList, "```".toList, "```tool_call\n".toList, false⟩⟩,
      "pre".toList, "```tool_call\n".toList⟩
    ("```tool_call\n\x7b\x7d```".toList) (by rfl)
  exact h

theorem takeWhile_all_append (p : Char → Bool) (xs : List Char) (c : Char) (ys : List Char)
    (hall : xs.all p = true) (hc : p c = false) :
    (xs ++ c :: ys).takeWhile p = xs := by
  induction xs with
  | nil => simp [List.takeWhile_cons, hc]
  | cons a t ih =>
    simp only [List.all_cons, Bool.and_eq_true] at hall
    simp [List.takeWhile_cons, hall.1, ih hall.2]

theorem findMatchFrom_succ (opts : ParseJsonFunctionCallsOptions) (fuel : Nat)
    (cs : List Char) (i : Nat) :
    findMatchFrom opts (fuel + 1) cs i =
      if cs.length < i then none
      else
        match matchAtPos opts cs i with
        | some m => some m
        | none => findMatchFrom opts fuel cs (i + 1) := rfl

theorem regexMatchesAux_succ (opts : ParseJsonFunctionCallsOptions) (cs : List Char)
    (fuel li : Nat) :
    regexMatchesAux opts cs (fuel + 1) li =
      match findMatchFrom opts (cs.length + 1) cs li with
      | none => []
      | some m => m :: regexMatchesAux opts cs fuel m.stop := rfl

theorem matchAtPos_none_of_ge (opts : ParseJsonFunctionCallsOptions) (cs : List Char)
    (i : Nat) (h : cs.length ≤ i) : matchAtPos opts cs i = none := by
  have hd : cs.drop i = [] := List.drop_eq_nil_of_le h
  have h1 : mdMatchAt cs i = none := by
    unfold mdMatchAt
    rw [hd]
    rfl
  have h2 : xmlMatchAt cs i = none := by
    unfold xmlMatchAt
    rw [hd]
    rfl
  have h3 : pyCallMatchAt cs i = none := by
    unfold pyCallMatchAt getCharAt
    rw [hd]
    rfl
  simp [matchAtPos, h1, h2, h3]

theorem findMatchFrom_none_of_ge (opts : ParseJsonFunctionCallsOptions) (cs : List Char) :
    ∀ (fuel i : Nat), cs.length ≤ i → findMatchFrom opts fuel cs i = none := by
  intro fuel
  induction fuel with
  | zero => intro i _; rfl
  | succ f ih =>
    intro i hi
    rw [findMatchFrom_succ]
    by_cases hlt : cs.length < i
    · rw [if_pos hlt]
    · rw [if_neg hlt, matchAtPos_none_of_ge opts cs i hi]
      exact ih (i + 1) (by omega)

theorem regexMatchesAux_of_none (opts : ParseJsonFunctionCallsOptions) (cs : List Char)
    (fuel li : Nat) (h : findMatchFrom opts (cs.length + 1) cs li = none) :
    regexMatchesAux opts cs fuel li = [] := by
  cases fuel with
  | zero => rfl
  | succ f => rw [regexMatchesAux_succ, h]

theorem replaceFirst_self (cs : List Char) : replaceFirst cs cs [] = [] := by
  have h0 : firstIdxOf cs cs = some 0 := by
    unfold firstIdxOf
    cases cs with
    | nil => rfl
    | cons c t =>
      unfold firstIdxOfAux
      rw [if_pos (startsWithL_refl (c :: t))]
  unfold replaceFirst
  rw [h0]
  simp [List.drop_length]

theorem drop_len_append (xs ys : List Char) : (xs ++ ys).drop xs.length = ys := by
  induction xs with
  | nil => rfl
  | cons a t ih => simp [ih]

theorem pyCallMatchAt_zero (nm args : List Char)
    (hnm1 : nm ≠ []) (hnm2 : nm.all isWordCh = true)
    (hargs : args.all (fun d => !(d == ')')) = true) :
    pyCallMatchAt ('[' :: (nm ++ ('(' :: (args ++ (")]".toList))))) 0 =
      some ⟨'[' :: (nm ++ ('(' :: (args ++ (")]".toList)))),
        ('[' :: (nm ++ ('(' :: (args ++ (")]".toList))))).length,
        .py nm args⟩ := by
  have hrun : (nm ++ ('(' :: (args ++ (")]".toList)))).takeWhile isWordCh = nm :=
    takeWhile_all_append isWordCh nm '(' (args ++ (")]".toList)) hnm2 (by decide)
  have hd1 : ('[' :: (nm ++ ('(' :: (args ++ (")]".toList))))).drop (0 + 1 + nm.length)
      = '(' :: (args ++ (")]".toList)) := by
    have he : 0 + 1 + nm.length = nm.length + 1 := by omega
    rw [he, List.drop_succ_cons, drop_len_append]
  have hd2 : ('[' :: (nm ++ ('(' :: (args ++ (")]".toList))))).drop (0 + 2 + nm.length)
      = args ++ (")]".toList) := by
    have he : 0 + 2 + nm.length = 0 + 1 + nm.length + 1 := by omega
    rw [he, ← List.drop_drop 1 (0 + 1 + nm.length), hd1]
    rfl
  have hargsrun : (args ++ (")]".toList)).takeWhile (fun d => !(d == ')')) = args := by
    have : args ++ (")]".toList) = args ++ (')' :: (("]".toList))) := rfl
    rw [this]
    exact takeWhile_all_append _ args ')' ("]".toList) hargs (by decide)
  have hd3 : ('[' :: (nm ++ ('(' :: (args ++ (")]".toList))))).drop
      (0 + 2 + nm.length + args.length) = (")]".toList) := by
    rw [← List.drop_drop args.length (0 + 2 + nm.length), hd2, drop_len_append]
  have hd4 : ('[' :: (nm ++ ('(' :: (args ++ (")]".toList))))).drop
      (0 + 2 + nm.length + args.length + 1) = ("]".toList) := by
    rw [← List.drop_drop 1 (0 + 2 + nm.length + args.length), hd3]
    rfl
  have hlen : 0 + 2 + nm.length + args.length + 2
      = ('[' :: (nm ++ ('(' :: (args ++ (")]".toList))))).length := by
    have h2 : ((")]".toList) : List Char).length = 2 := rfl
    simp only [List.length_cons, List.length_append, h2]
    omega
  unfold pyCallMatchAt
  have hg0 : getCharAt ('[' :: (nm ++ ('(' :: (args ++ (")]".toList))))) 0 = some '[' := rfl
  rw [hg0]
  dsimp only
  rw [if_pos (by decide : (('[' : Char) == '[') = true)]
  have hd0 : ('[' :: (nm ++ ('(' :: (args ++ (")]".toList))))).drop (0 + 1)
      = nm ++ ('(' :: (args ++ (")]".toList))) := rfl
  rw [hd0, hrun]
  have hc1 : (decide (0 < nm.length) &&
      (getCharAt ('[' :: (nm ++ ('(' :: (args ++ (")]".toList))))) (0 + 1 + nm.length)
        == some '(')) = true := by
    rw [Bool.and_eq_true]
    constructor
    · simpa using List.length_pos.mpr hnm1
    · unfold getCharAt
      rw [hd1]
      rfl
  rw [if_pos hc1]
  rw [hd2, hargsrun]
  have hc2 : (getCharAt ('[' :: (nm ++ ('(' :: (args ++ (")]".toList)))))
        (0 + 2 + nm.length + args.length) == some ')') = true := by
    unfold getCharAt
    rw [hd3]
    rfl
  have hc3 : (getCharAt ('[' :: (nm ++ ('(' :: (args ++ (")]".toList)))))
        (0 + 2 + nm.length + args.length + 1) == some ']') = true := by
    unfold getCharAt
    rw [hd4]
    rfl
  rw [if_pos (by rw [Bool.and_eq_true]; exact ⟨hc2, hc3⟩)]
  rw [List.drop_zero]
  have ht : 0 + 2 + nm.length + args.length + 2 - 0
      = ('[' :: (nm ++ ('(' :: (args ++ (")]".toList))))).length := by omega
  rw [ht, List.take_length, ← hlen]

theorem regexMatches_py (nm args : List Char)
    (hnm1 : nm ≠ []) (hnm2 : nm.all isWordCh = true)
    (hargs : args.all (fun d => !(d == ')')) = true) :
    regexMatches DEFAULT_OPTIONS ('[' :: (nm ++ ('(' :: (args ++ (")]".toList)))))
      = [⟨'[' :: (nm ++ ('(' :: (args ++ (")]".toList)))),
          ('[' :: (nm ++ ('(' :: (args ++ (")]".toList))))).length, .py nm args⟩] := by
  have hat : matchAtPos DEFAULT_OPTIONS ('[' :: (nm ++ ('(' :: (args ++ (")]".toList))))) 0
      = some ⟨'[' :: (nm ++ ('(' :: (args ++ (")]".toList)))),
          ('[' :: (nm ++ ('(' :: (args ++ (")]".toList))))).length, .py nm args⟩ := by
    have h : matchAtPos DEFAULT_OPTIONS ('[' :: (nm ++ ('(' :: (args ++ (")]".toList))))) 0
        = pyCallMatchAt ('[' :: (nm ++ ('(' :: (args ++ (")]".toList))))) 0 := rfl
    rw [h, pyCallMatchAt_zero nm args hnm1 hnm2 hargs]
  have hfind : findMatchFrom DEFAULT_OPTIONS
      (('[' :: (nm ++ ('(' :: (args ++ (")]".toList))))).length + 1)
      ('[' :: (nm ++ ('(' :: (args ++ (")]".toList))))) 0
      = some ⟨'[' :: (nm ++ ('(' :: (args ++ (")]".toList)))),
          ('[' :: (nm ++ ('(' :: (args ++ (")]".toList))))).length, .py nm args⟩ := by
    rw [findMatchFrom_succ,
      if_neg (by omega : ¬ ('[' :: (nm ++ ('(' :: (args ++ (")]".toList))))).length < 0), hat]
  rw [regexMatches, regexMatchesAux_succ, hfind]
  dsimp only
  rw [regexMatchesAux_of_none DEFAULT_OPTIONS _ _ _
    (findMatchFrom_none_of_ge DEFAULT_OPTIONS _ _ _ (le_refl _))]

/-- Claim C4 (amended): for every bracket-call input `[name(args)]` — `name` a
non-empty word-character run, `args` free of `)` — `parseJsonFunctionCalls`
produces exactly one call with the captured name, a freshly generated id, and
an args object built by splitting the argument text on every comma (including
commas inside quotes), keeping `key=value` pieces with `=` at a positive index,
trimming, and stripping one matching pair of surrounding quotes; the remaining
text content is empty. -/
theorem claim4_theorem (gen : Nat → List Char) (nm args : List Char)
    (hnm1 : nm ≠ []) (hnm2 : nm.all isWordCh = true)
    (hargs : args.all (fun d => !(d == ')')) = true) :
    parseJsonFunctionCalls gen ('[' :: (nm ++ ('(' :: (args ++ (")]".toList)))))
        DEFAULT_OPTIONS
      = ⟨[⟨Jv.jstr (gen 0), Jv.jstr nm, Jv.jobj (pairsSpecC4 args)⟩], []⟩ := by
  unfold parseJsonFunctionCalls parseJsonFunctionCallsE
  rw [regexMatches_py nm args hnm1 hnm2 hargs]
  dsimp only [List.isEmpty_cons]
  rw [if_neg (by simp : ¬ (false = true))]
  unfold parseAllE parseStepE
  have hrep : replaceFirst ('[' :: (nm ++ ('(' :: (args ++ (")]".toList)))))
      ('[' :: (nm ++ ('(' :: (args ++ (")]".toList))))) [] = [] := replaceFirst_self _
  dsimp only [perMatchBodyE]
  rw [hrep]
  rfl
/-- Witness for C4 at the amended claim's own example `[search(query="hello")]`:
one call named `search` with args mapping `query` to the string `hello`. -/
theorem claim4_witness :
    ("search".toList ≠ ([] : List Char)) ∧
      (("search".toList).all isWordCh = true) ∧
      ((("query=\"hello\"".toList).all (fun d => !(d == ')'))) = true) ∧
      parseJsonFunctionCalls genDemo ("[search(query=\"hello\")]".toList) DEFAULT_OPTIONS
        = ⟨[⟨Jv.jstr (genDemo 0), Jv.jstr ("search".toList),
             Jv.jobj [(("query".toList), Jv.jstr ("hello".toList))]⟩], []⟩ := by
  refine ⟨by decide, by decide, by decide, ?_⟩
  have he : ("[search(query=\"hello\")]".toList)
      = '[' :: (("search".toList) ++ ('(' :: (("query=\"hello\"".toList) ++ (")]".toList)))) := by
    decide
  rw [he, claim4_theorem genDemo ("search".toList) ("query=\"hello\"".toList)
      (by decide) (by decide) (by decide)]
  have hp : pairsSpecC4 ("query=\"hello\"".toList)
      = [(("query".toList), Jv.jstr ("hello".toList))] := by rfl
  rw [hp]
theorem scanLoop_delta (xs : List Char) (s : ScanSub) :
    (scanLoop xs s).1 = xs.take (scanLoop xs s).2.2 := by
  induction xs generalizing s with
  | nil => rfl
  | cons c t ih =>
    simp only [scanLoop]
    split
    · rfl
    · simp only [List.take_succ_cons]
      exact congrArg (c :: ·) (ih (scanStep s c))

theorem scanLoop_consumed_le (xs : List Char) (s : ScanSub) :
    (scanLoop xs s).2.2 ≤ xs.length := by
  induction xs generalizing s with
  | nil => simp [scanLoop]
  | cons c t ih =>
    simp only [scanLoop, List.length_cons]
    split
    · simp
    · have := ih (scanStep s c)
      simp only []
      omega

theorem scanLoop_incomplete (xs : List Char) (s : ScanSub)
    (h : (scanLoop xs s).2.1.complete = false) : (scanLoop xs s).2.2 = xs.length := by
  induction xs generalizing s with
  | nil => rfl
  | cons c t ih =>
    cases hc : (scanStep s c).complete with
    | true => simp [scanLoop, hc] at h
    | false =>
      simp only [scanLoop, hc] at h ⊢
      simp only [Bool.false_eq_true, if_false] at h ⊢
      rw [List.length_cons, ih (scanStep s c) h]

theorem scanLoop_append (xs ys : List Char) (s : ScanSub) (hs : s.complete = false) :
    scanLoop (xs ++ ys) s =
      if (scanLoop xs s).2.1.complete then scanLoop xs s
      else ((scanLoop xs s).1 ++ (scanLoop ys (scanLoop xs s).2.1).1,
            (scanLoop ys (scanLoop xs s).2.1).2.1,
            (scanLoop xs s).2.2 + (scanLoop ys (scanLoop xs s).2.1).2.2) := by
  induction xs generalizing s with
  | nil => simp [scanLoop, hs]
  | cons c t ih =>
    cases hc : (scanStep s c).complete with
    | true => simp [scanLoop, hc]
    | false =>
      simp only [List.cons_append, scanLoop, hc, Bool.false_eq_true, if_false, List.append_eq]
      rw [ih (scanStep s c) hc]
      by_cases hC : (scanLoop t (scanStep s c)).2.1.complete = true
      · simp [hC]
      · rw [Bool.not_eq_true] at hC
        simp [hC, Nat.add_right_comm]

theorem scanLoop_idem (xs : List Char) (s : ScanSub) :
    scanLoop ((scanLoop xs s).1) s = scanLoop xs s := by
  induction xs generalizing s with
  | nil => rfl
  | cons c t ih =>
    cases hc : (scanStep s c).complete with
    | true => simp [scanLoop, hc]
    | false => simp [scanLoop, hc, ih]
theorem takeWhile_length_le (l : List Char) : (l.takeWhile isJsWs).length ≤ l.length := by
  induction l with
  | nil => simp
  | cons a t ih =>
    by_cases h : isJsWs a
    · simp only [List.takeWhile_cons, h, if_true, List.length_cons]
      omega
    · simp only [List.takeWhile_cons, h, Bool.false_eq_true, if_false, List.length_nil]
      omega

theorem countWsFrom_le (cs : List Char) (j : Nat) : countWsFrom cs j ≤ cs.length - j := by
  have h := takeWhile_length_le (cs.drop j)
  rw [List.length_drop] at h
  exact h

theorem getCharAt_some_lt (cs : List Char) (n : Nat) (c : Char)
    (h : getCharAt cs n = some c) : n < cs.length := by
  unfold getCharAt at h
  cases hd : cs.drop n with
  | nil =>
    rw [hd] at h
    exact absurd h (by simp)
  | cons a l =>
    have hl : (cs.drop n).length = l.length + 1 := by rw [hd]; rfl
    rw [List.length_drop] at hl
    omega

theorem matchKeyAt_le (cs : List Char) (i e : Nat) (h : matchKeyAt cs i = some e) :
    e ≤ cs.length := by
  simp only [matchKeyAt] at h
  split at h
  · split at h
    · rename_i hcolon
      injection h with h'
      have hg : getCharAt cs (i + 11 + countWsFrom cs (i + 11)) = some ':' :=
        eq_of_beq hcolon
      have h1 := getCharAt_some_lt cs _ _ hg
      have h2 := countWsFrom_le cs (i + 11 + countWsFrom cs (i + 11) + 1)
      omega
    · exact absurd h (by simp)
  · exact absurd h (by simp)

theorem findKeyFrom_le (fuel : Nat) (cs : List Char) (i p e : Nat)
    (h : findKeyFrom fuel cs i = some (p, e)) : e ≤ cs.length := by
  induction fuel generalizing i with
  | zero => exact absurd h (by simp [findKeyFrom])
  | succ f ih =>
    simp only [findKeyFrom] at h
    split at h
    · exact absurd h (by simp)
    · cases hm : matchKeyAt cs i with
      | some e' =>
        rw [hm] at h
        dsimp only at h
        injection h with h'
        have h2 : e' = e := congrArg Prod.snd h'
        exact h2 ▸ matchKeyAt_le cs i e' hm
      | none =>
        rw [hm] at h
        dsimp only at h
        exact ih (i + 1) h

theorem findKey_le (cs : List Char) (i p e : Nat) (h : findKey cs i = some (p, e)) :
    e ≤ cs.length :=
  findKeyFrom_le (cs.length + 1) cs i p e h
theorem extract_complete_eq (content : List Char) (st : ArgumentsStreamState)
    (h : st.complete = true) : extractArgumentsDelta content st = ([], st) := by
  simp [extractArgumentsDelta, h]

theorem extract_none_eq (content : List Char) (st : ArgumentsStreamState)
    (hc : st.complete = false) (hv : st.valueStartIndex = none) :
    extractArgumentsDelta content st
      = (match findKey content st.searchFrom with
         | none => ([], { st with searchFrom := content.length - ARGUMENTS_SEARCH_OVERLAP })
         | some ie =>
           extractScan content
             { st with valueStartIndex := some ie.2, parseIndex := ie.2, searchFrom := ie.2 }) := by
  unfold extractArgumentsDelta
  rw [hc, hv]
  rfl

theorem extract_some_eq (content : List Char) (st : ArgumentsStreamState)
    (hc : st.complete = false) (v : Nat) (hv : st.valueStartIndex = some v) :
    extractArgumentsDelta content st = extractScan content st := by
  unfold extractArgumentsDelta
  rw [hc, hv]
  rfl

theorem extractScan_guard (content : List Char) (st : ArgumentsStreamState)
    (h : content.length ≤ st.parseIndex) : extractScan content st = ([], st) := by
  unfold extractScan
  rw [if_pos h]

theorem extractScan_run (content : List Char) (st : ArgumentsStreamState)
    (h : ¬ content.length ≤ st.parseIndex) :
    extractScan content st
      = ((scanLoop (content.drop st.parseIndex) (subOf st)).1,
         { st with
            parseIndex := st.parseIndex + (scanLoop (content.drop st.parseIndex) (subOf st)).2.2,
            started := (scanLoop (content.drop st.parseIndex) (subOf st)).2.1.started,
            depth := (scanLoop (content.drop st.parseIndex) (subOf st)).2.1.depth,
            inString := (scanLoop (content.drop st.parseIndex) (subOf st)).2.1.inString,
            escaped := (scanLoop (content.drop st.parseIndex) (subOf st)).2.1.escaped,
            complete := (scanLoop (content.drop st.parseIndex) (subOf st)).2.1.complete }) := by
  unfold extractScan
  rw [if_neg h]

theorem extractScan_vsi (content : List Char) (st : ArgumentsStreamState) :
    (extractScan content st).2.valueStartIndex = st.valueStartIndex := by
  unfold extractScan
  split
  · rfl
  · rfl
theorem subOf_complete (st : ArgumentsStreamState) : (subOf st).complete = st.complete := rfl

theorem extract_preserves (c t : List Char) (st : ArgumentsStreamState) (acc : List Char)
    (hinv : extractInv c st acc) :
    extractInv (c ++ t) (extractArgumentsDelta (c ++ t) st).2
      (acc ++ (extractArgumentsDelta (c ++ t) st).1) := by
  obtain ⟨hnone, hsome⟩ := hinv
  cases hcb : st.complete with
  | true =>
    rw [extract_complete_eq (c ++ t) st hcb]
    dsimp only
    constructor
    · intro hv
      obtain ⟨h1, h2, h3⟩ := hnone hv
      exact ⟨by simp [h1], h2, h3⟩
    · intro v hv
      obtain ⟨h1, h2, h3, h4, h5⟩ := hsome v hv
      refine ⟨h1, ?_, ?_, ?_, Or.inl hcb⟩
      · simp only [List.length_append]
        omega
      · rw [List.take_append_of_le_length h2]
        exact h3
      · rw [List.take_append_of_le_length h2, List.append_nil]
        exact h4
  | false =>
    cases hvc : st.valueStartIndex with
    | none =>
      obtain ⟨ha, hpI, hsub⟩ := hnone hvc
      rw [extract_none_eq (c ++ t) st hcb hvc]
      cases hk : findKey (c ++ t) st.searchFrom with
      | none =>
        dsimp only
        constructor
        · intro _
          exact ⟨by simp [ha], hpI, hsub⟩
        · intro v hv
          dsimp only at hv
          rw [hvc] at hv
          exact absurd hv (by simp)
      | some ie =>
        obtain ⟨p, e⟩ := ie
        dsimp only
        have he : e ≤ (c ++ t).length := findKey_le (c ++ t) st.searchFrom p e hk
        by_cases hg : (c ++ t).length ≤ e
        · rw [extractScan_guard (c ++ t) _ hg]
          dsimp only
          constructor
          · intro hv
            exact absurd hv (by simp)
          · intro v hv
            dsimp only at hv
            injection hv with hev
            subst hev
            have hreg : ((c ++ t).take e).drop e = [] := by
              apply List.drop_eq_nil_of_le
              rw [List.length_take]
              omega
            dsimp only
            refine ⟨Nat.le_refl e, he, ?_, ?_, Or.inr ?_⟩
            · rw [hreg]
              have hs1 : subOf
                  { st with valueStartIndex := some e, parseIndex := e, searchFrom := e }
                  = freshScan := hsub
              rw [hs1, Nat.sub_self]
              rfl
            · rw [hreg, ha, List.append_nil]
            · omega
        · rw [extractScan_run (c ++ t) _ hg]
          have hs1 : subOf { st with valueStartIndex := some e, parseIndex := e, searchFrom := e }
              = freshScan := hsub
          dsimp only
          rw [hs1]
          have hn_le := scanLoop_consumed_le ((c ++ t).drop e) freshScan
          rw [List.length_drop] at hn_le
          have hdelta := scanLoop_delta ((c ++ t).drop e) freshScan
          constructor
          · intro hv
            exact absurd hv (by simp)
          · intro v hv
            dsimp only at hv
            injection hv with hev
            subst hev
            dsimp only
            have hregion : ((c ++ t).take (e + (scanLoop ((c ++ t).drop e) freshScan).2.2)).drop e
                = (scanLoop ((c ++ t).drop e) freshScan).1 := by
              have h0 : e + (scanLoop ((c ++ t).drop e) freshScan).2.2 - e
                  = (scanLoop ((c ++ t).drop e) freshScan).2.2 := by omega
              rw [List.drop_take, h0, hdelta]
            refine ⟨Nat.le_add_right e _, by omega, ?_, ?_, ?_⟩
            · rw [hregion]
              have h0 : e + (scanLoop ((c ++ t).drop e) freshScan).2.2 - e
                  = (scanLoop ((c ++ t).drop e) freshScan).2.2 := by omega
              rw [h0]
              exact scanLoop_idem ((c ++ t).drop e) freshScan
            · rw [hregion, ha, List.nil_append]
            · cases hcomp : (scanLoop ((c ++ t).drop e) freshScan).2.1.complete with
              | true => exact Or.inl rfl
              | false =>
                have hinc := scanLoop_incomplete ((c ++ t).drop e) freshScan hcomp
                rw [List.length_drop] at hinc
                exact Or.inr (by omega)
    | some v0 =>
      obtain ⟨h1, h2, h3, h4, h5⟩ := hsome v0 hvc
      rw [extract_some_eq (c ++ t) st hcb v0 hvc]
      by_cases hg : (c ++ t).length ≤ st.parseIndex
      · rw [extractScan_guard (c ++ t) st hg]
        dsimp only
        constructor
        · intro hv
          rw [hvc] at hv
          exact absurd hv (by simp)
        · intro v hv
          rw [hvc] at hv
          injection hv with hev
          subst hev
          have hlen : c.length ≤ (c ++ t).length := by simp
          refine ⟨h1, by omega, ?_, ?_, Or.inr ?_⟩
          · rw [List.take_append_of_le_length h2]
            exact h3
          · rw [List.take_append_of_le_length h2, List.append_nil]
            exact h4
          · omega
      · rw [extractScan_run (c ++ t) st hg]
        dsimp only
        have hpIlt : st.parseIndex < (c ++ t).length := Nat.lt_of_not_le hg
        have hn_le := scanLoop_consumed_le ((c ++ t).drop st.parseIndex) (subOf st)
        rw [List.length_drop] at hn_le
        have hdelta := scanLoop_delta ((c ++ t).drop st.parseIndex) (subOf st)
        have htake : (c ++ t).take st.parseIndex = c.take st.parseIndex :=
          List.take_append_of_le_length h2
        have hsplit : ((c ++ t).take
              (st.parseIndex + (scanLoop ((c ++ t).drop st.parseIndex) (subOf st)).2.2)).drop v0
            = ((c.take st.parseIndex).drop v0)
              ++ (scanLoop ((c ++ t).drop st.parseIndex) (subOf st)).1 := by
          rw [List.take_add]
          rw [List.drop_append_of_le_length (by rw [List.length_take]; omega)]
          rw [htake, ← hdelta]
        constructor
        · intro hv
          rw [hvc] at hv
          exact absurd hv (by simp)
        · intro v hv
          rw [hvc] at hv
          injection hv with hev
          subst hev
          dsimp only
          refine ⟨by omega, by omega, ?_, ?_, ?_⟩
          · rw [hsplit]
            rw [scanLoop_append _ _ freshScan rfl]
            rw [h3]
            dsimp only
            rw [subOf_complete, hcb]
            simp only [Bool.false_eq_true, if_false]
            rw [scanLoop_idem ((c ++ t).drop st.parseIndex) (subOf st)]
            have harith : st.parseIndex - v0
                  + (scanLoop ((c ++ t).drop st.parseIndex) (subOf st)).2.2
                = st.parseIndex + (scanLoop ((c ++ t).drop st.parseIndex) (subOf st)).2.2 - v0 := by
              omega
            rw [harith]
            rfl
          · rw [hsplit, h4]
          · cases hcomp : (scanLoop ((c ++ t).drop st.parseIndex) (subOf st)).2.1.complete with
            | true => exact Or.inl rfl
            | false =>
              have hinc := scanLoop_incomplete ((c ++ t).drop st.parseIndex) (subOf st) hcomp
              rw [List.length_drop] at hinc
              exact Or.inr (by omega)
theorem streamFoldFrom_cons (e : List Char) (rest : List (List Char)) (acc : List Char)
    (st : ArgumentsStreamState) :
    streamFoldFrom (e :: rest) acc st
      = streamFoldFrom rest (acc ++ (extractArgumentsDelta e st).1)
          (extractArgumentsDelta e st).2 := rfl

theorem streamRun_eq_fold (chain : List (List Char)) :
    streamRun chain = streamFoldFrom chain [] createArgumentsStreamState := rfl

theorem streamFold_inv (chain : List (List Char)) (c : List Char)
    (st : ArgumentsStreamState) (acc : List Char)
    (hch : chainExtends c chain = true) (hinv : extractInv c st acc) :
    extractInv (chain.getLastD c) (streamFoldFrom chain acc st).2
      (streamFoldFrom chain acc st).1 := by
  induction chain generalizing c st acc with
  | nil => exact hinv
  | cons e rest ih =>
    simp only [chainExtends, Bool.and_eq_true] at hch
    obtain ⟨h1, h2⟩ := hch
    obtain ⟨u, rfl⟩ := (startsWithL_iff c e).mp h1
    have hstep := extract_preserves c u st acc hinv
    rw [streamFoldFrom_cons, List.getLastD_cons]
    exact ih (c ++ u) _ _ h2 hstep

theorem startsWithL_nil (xs : List Char) : startsWithL xs [] = true :=
  (startsWithL_iff [] xs).mpr ⟨xs, by simp⟩

theorem chainTo_spec (chain : List (List Char)) (s : List Char) (h : chainTo chain s = true) :
    chainExtends [] chain = true ∧ chain.getLastD [] = s := by
  induction chain with
  | nil => exact absurd h (by simp [chainTo])
  | cons c rest ih =>
    cases rest with
    | nil =>
      simp only [chainTo] at h
      have hcs : c = s := by simpa using h
      subst hcs
      refine ⟨?_, rfl⟩
      simp only [chainExtends, Bool.and_eq_true]
      exact ⟨startsWithL_nil c, trivial⟩
    | cons c' rest' =>
      simp only [chainTo, Bool.and_eq_true] at h
      obtain ⟨h1, h2⟩ := h
      obtain ⟨ih1, ih2⟩ := ih h2
      constructor
      · simp only [chainExtends, Bool.and_eq_true] at ih1 ⊢
        exact ⟨startsWithL_nil c, h1, ih1.2⟩
      · rw [List.getLastD_cons, List.getLastD_cons]
        rw [List.getLastD_cons] at ih2
        exact ih2
/-- Claim C2 (amended): for every content string `s` and every chain of
successive prefixes of `s` ending with the full string, fed one call at a time
to `extractArgumentsDelta` with one shared state, the concatenation of the
returned deltas equals exactly the region of `s` from the value-start position
the streaming run locates through the last processed character (and is empty
when no value start was located); consequently, whenever the streaming run
locates the same value-start position as the one-shot extraction on the full
string, the concatenated deltas equal the one-shot delta. -/
theorem claim2_theorem (s : List Char) (chain : List (List Char))
    (hch : chainTo chain s = true) :
    ((streamRun chain).2.valueStartIndex = none → (streamRun chain).1 = []) ∧
    (∀ v, (streamRun chain).2.valueStartIndex = some v →
      (streamRun chain).1 = (s.take (streamRun chain).2.parseIndex).drop v) ∧
    ((streamRun chain).2.valueStartIndex
        = (extractArgumentsDelta s createArgumentsStreamState).2.valueStartIndex →
      (streamRun chain).1 = (extractArgumentsDelta s createArgumentsStreamState).1) := by
  obtain ⟨hce, hlast⟩ := chainTo_spec chain s hch
  have hbase : extractInv [] createArgumentsStreamState [] := by
    constructor
    · intro _
      exact ⟨rfl, rfl, rfl⟩
    · intro v hv
      simp [createArgumentsStreamState] at hv
  have hinv := streamFold_inv chain [] createArgumentsStreamState [] hce hbase
  rw [hlast] at hinv
  rw [streamRun_eq_fold]
  obtain ⟨hn, hsome⟩ := hinv
  refine ⟨fun hv => (hn hv).1, fun v hv => (hsome v hv).2.2.2.1, ?_⟩
  intro hagree
  cases hv : (streamFoldFrom chain [] createArgumentsStreamState).2.valueStartIndex with
  | none =>
    rw [hv] at hagree
    rw [extract_none_eq s createArgumentsStreamState rfl rfl] at hagree ⊢
    cases hk : findKey s createArgumentsStreamState.searchFrom with
    | none =>
      dsimp only
      exact (hn hv).1
    | some ie =>
      rw [hk] at hagree
      dsimp only at hagree
      rw [extractScan_vsi] at hagree
      dsimp only at hagree
      exact absurd hagree (by simp)
  | some v =>
    rw [hv] at hagree
    obtain ⟨hv1, hv2, hv3, hv4, hv5⟩ := hsome v hv
    rw [extract_none_eq s createArgumentsStreamState rfl rfl] at hagree ⊢
    cases hk : findKey s createArgumentsStreamState.searchFrom with
    | none =>
      rw [hk] at hagree
      dsimp only at hagree
      exact absurd hagree (by simp [createArgumentsStreamState])
    | some ie =>
      obtain ⟨p, e⟩ := ie
      rw [hk] at hagree
      dsimp only at hagree ⊢
      rw [extractScan_vsi] at hagree
      dsimp only at hagree
      injection hagree with hve
      subst hve
      have he : v ≤ s.length := findKey_le s createArgumentsStreamState.searchFrom p v hk
      by_cases hg : s.length ≤ v
      · rw [extractScan_guard s _ hg]
        dsimp only
        rw [hv4]
        apply List.drop_eq_nil_of_le
        rw [List.length_take]
        omega
      · rw [extractScan_run s _ hg]
        dsimp only
        have hs1 : subOf { createArgumentsStreamState with
            valueStartIndex := some v, parseIndex := v, searchFrom := v } = freshScan := rfl
        rw [hs1]
        have hsplit : s.drop v
            = ((s.take ((streamFoldFrom chain [] createArgumentsStreamState).2.parseIndex)).drop v)
              ++ s.drop ((streamFoldFrom chain [] createArgumentsStreamState).2.parseIndex) := by
          conv_lhs => rw [← List.take_append_drop
            ((streamFoldFrom chain [] createArgumentsStreamState).2.parseIndex) s]
          rw [List.drop_append_of_le_length (by rw [List.length_take]; omega)]
        rw [hsplit, scanLoop_append _ _ freshScan rfl, hv3]
        dsimp only
        rw [subOf_complete]
        cases hcF : (streamFoldFrom chain [] createArgumentsStreamState).2.complete with
        | true =>
          rw [if_pos rfl]
          dsimp only
          exact hv4
        | false =>
          have hpF : (streamFoldFrom chain [] createArgumentsStreamState).2.parseIndex
              = s.length := by
            rcases hv5 with h | h
            · rw [hcF] at h
              exact absurd h (by simp)
            · exact h
          have hnil : s.drop ((streamFoldFrom chain [] createArgumentsStreamState).2.parseIndex)
              = [] := by
            rw [hpF]
            exact List.drop_length s
          rw [if_neg (by simp)]
          rw [hnil]
          simp only [scanLoop]
          rw [List.append_nil]
          exact hv4
/-- Witness for C2 at a concrete two-prefix chain whose streaming run locates
the same value start as the one-shot run, so the concatenated deltas coincide
with the one-shot extraction. -/
theorem claim2_witness :
    chainTo [("\"arguments\": [1".toList), ("\"arguments\": [1,2]".toList)]
        ("\"arguments\": [1,2]".toList) = true ∧
      (streamRun [("\"arguments\": [1".toList), ("\"arguments\": [1,2]".toList)]).2.valueStartIndex
        = (extractArgumentsDelta ("\"arguments\": [1,2]".toList)
            createArgumentsStreamState).2.valueStartIndex ∧
      (streamRun [("\"arguments\": [1".toList), ("\"arguments\": [1,2]".toList)]).1
        = (extractArgumentsDelta ("\"arguments\": [1,2]".toList)
            createArgumentsStreamState).1 :=
  ⟨by decide, by decide,
    (claim2_theorem ("\"arguments\": [1,2]".toList)
      [("\"arguments\": [1".toList), ("\"arguments\": [1,2]".toList)] (by decide)).2.2
      (by decide)⟩
